import Mathlib

/-!
# Verification of the TamperApi request/response modification engine

Shallow embedding of the TamperApi extension core: the JSON data model
(specs travel as JSON through `JSON.stringify` / `JSON.parse` round trips),
the `b64EncodeUnicode` / `b64DecodeUnicode` transport codec, the header
transforms `setHeaders` / `removeHeaders`, the `TamperStore` correlation
engine, and the three webRequest lifecycle handlers.

Modelling conventions:
- JavaScript numbers are modelled as integers (`Int`); specs never carry
  fractional values and integer arithmetic is exact in the safe range.
- JavaScript strings are modelled as Lean `String` (sequences of Unicode
  scalar values); lone surrogates, which cannot arise from well-formed
  client input, are unrepresentable and decoding rejects them.
- Exceptions are modelled with `Except Unit`; a thrown exception leaves
  the store exactly as it was at the throw point, which the handler
  models reproduce by performing store updates in source order.
-/

/-- A JSON value as produced by `JSON.parse` / consumed by `JSON.stringify`.
Objects keep their fields in insertion order, as JavaScript objects do for
string keys. -/
inductive Json where
  | null
  | bool (b : Bool)
  | num (n : Int)
  | str (s : String)
  | arr (elems : List Json)
  | obj (fields : List (String × Json))
deriving Repr

/-- First binding of a key in an object's field list (JavaScript property
lookup; field lists built by the engine have no duplicate keys). -/
def jlookup : List (String × Json) → String → Option Json
  | [], _ => none
  | (k, v) :: rest, key => if k = key then some v else jlookup rest key

/-- JavaScript property assignment `o[key] = v`: overwrite in place if the
key exists, otherwise append (property creation order). -/
def jset : List (String × Json) → String → Json → List (String × Json)
  | [], key, v => [(key, v)]
  | (k, w) :: rest, key, v =>
    if k = key then (key, v) :: rest else (k, w) :: jset rest key v

/-- JavaScript `delete o[key]` (removes every binding; equal to deleting
the single property on the duplicate-free lists the engine builds). -/
def jdelete : List (String × Json) → String → List (String × Json)
  | [], _ => []
  | (k, v) :: rest, key =>
    if k = key then jdelete rest key else (k, v) :: jdelete rest key

/-- JavaScript truthiness of a value (`undefined` is handled at call
sites via `Option`). -/
def jTruthy : Json → Bool
  | .null => false
  | .bool b => b
  | .num n => n ≠ 0
  | .str s => s ≠ ""
  | .arr _ => true
  | .obj _ => true

/-- Truthiness of a possibly-absent (`undefined`) value. -/
def jTruthyOpt : Option Json → Bool
  | none => false
  | some v => jTruthy v

/-- No string occurs twice. -/
def jnodupKeys : List String → Bool
  | [] => true
  | k :: rest => !(rest.contains k) && jnodupKeys rest

mutual

/-- Well-formed values: integer components in the IEEE-double safe range
and no duplicate object keys, recursively. Every value delivered to the
engine by `JSON.parse` (client messages, decoded tokens) satisfies this. -/
def jwf : Json → Bool
  | .null => true
  | .bool _ => true
  | .num n => n.natAbs ≤ 9007199254740991
  | .str _ => true
  | .arr l => jwfList l
  | .obj l => jnodupKeys (l.map Prod.fst) && jwfFields l

def jwfList : List Json → Bool
  | [] => true
  | x :: rest => jwf x && jwfList rest

def jwfFields : List (String × Json) → Bool
  | [] => true
  | (_, v) :: rest => jwf v && jwfFields rest

end

/-! ## JSON.stringify -/

/-- Lowercase hex digit, as `Number.prototype.toString(16)` produces. -/
def hexDigitChar (n : Nat) : Char :=
  if n < 10 then Char.ofNat (48 + n) else Char.ofNat (87 + n)

/-- Decimal digit character. -/
def digitChar (n : Nat) : Char := Char.ofNat (48 + n)

/-- Decimal digits of a natural number, most significant first
(the digits `Number.prototype.toString` prints). -/
def natDigits (n : Nat) : List Char :=
  if n < 10 then [digitChar n]
  else natDigits (n / 10) ++ [digitChar (n % 10)]
decreasing_by exact Nat.div_lt_self (by omega) (by omega)

/-- The decimal notation JavaScript prints for an integer in the safe
range. -/
def intChars (k : Int) : List Char :=
  if k < 0 then '-' :: natDigits k.natAbs else natDigits k.toNat

/-- `JSON.stringify` escaping of one string character: `"` and `\` get a
backslash escape, the five short-escape controls use their letter form,
other control characters become `\u00xx`, everything else is verbatim. -/
def escapeChar (c : Char) : List Char :=
  if c = '"' then ['\\', '"']
  else if c = '\\' then ['\\', '\\']
  else if c = '\x08' then ['\\', 'b']
  else if c = '\x09' then ['\\', 't']
  else if c = '\x0a' then ['\\', 'n']
  else if c = '\x0c' then ['\\', 'f']
  else if c = '\x0d' then ['\\', 'r']
  else if c.toNat < 32 then
    ['\\', 'u', '0', '0', hexDigitChar (c.toNat / 16), hexDigitChar (c.toNat % 16)]
  else [c]

/-- `JSON.stringify` of a string, as a character list. -/
def printStr (s : String) : List Char :=
  '"' :: (s.data.map escapeChar).flatten ++ ['"']

mutual

/-- `JSON.stringify` (no space argument), as a character list. -/
def printJson : Json → List Char
  | .null => "null".data
  | .bool true => "true".data
  | .bool false => "false".data
  | .num n => intChars n
  | .str s => printStr s
  | .arr l => '[' :: printElems l ++ [']']
  | .obj l => '\x7b' :: printFields l ++ ['\x7d']

def printElems : List Json → List Char
  | [] => []
  | [x] => printJson x
  | x :: y :: rest => printJson x ++ ',' :: printElems (y :: rest)

def printFields : List (String × Json) → List Char
  | [] => []
  | [(k, v)] => printStr k ++ ':' :: printJson v
  | (k, v) :: m :: rest => printStr k ++ ':' :: printJson v ++ ',' :: printFields (m :: rest)

end

/-- `JSON.stringify` at type `String`. -/
def stringify (v : Json) : String := String.mk (printJson v)

/-! ## JSON.parse

A fuel-indexed recursive-descent parser. The fuel only serves the
termination argument; `parseJson` supplies enough for any input.
Model restriction: numbers are integers, so fraction/exponent suffixes
are rejected rather than parsed to floating point, and a `\uXXXX` escape
denoting a lone surrogate is rejected (not representable as a scalar). -/

/-- JSON insignificant whitespace (space, tab, line feed, carriage
return). -/
def isJsonWs (c : Char) : Bool :=
  c.toNat = 32 || c.toNat = 9 || c.toNat = 10 || c.toNat = 13

def skipWs : List Char → List Char
  | [] => []
  | c :: rest => if isJsonWs c then skipWs rest else c :: rest

/-- Value of a hex digit, either case. -/
def hexVal : Char → Option Nat
  | c =>
    if 48 ≤ c.toNat ∧ c.toNat ≤ 57 then some (c.toNat - 48)
    else if 97 ≤ c.toNat ∧ c.toNat ≤ 102 then some (c.toNat - 87)
    else if 65 ≤ c.toNat ∧ c.toNat ≤ 70 then some (c.toNat - 55)
    else none

def isDigitChar (c : Char) : Bool := 48 ≤ c.toNat && c.toNat ≤ 57

def digitsToNat (l : List Char) : Nat :=
  l.foldl (fun acc c => acc * 10 + (c.toNat - 48)) 0

/-- Parse the decimal digit run of a JSON number after the optional sign.
Leading zeros and fraction/exponent suffixes are rejected (the latter a
model restriction: the engine's specs never carry non-integer numbers). -/
def parseNat (cs : List Char) : Except Unit (Nat × List Char) :=
  if (cs.takeWhile isDigitChar).isEmpty then .error ()
  else if (cs.takeWhile isDigitChar).length > 1 ∧ (cs.takeWhile isDigitChar).headD '0' = '0' then
    .error ()
  else match cs.dropWhile isDigitChar with
    | '.' :: _ => .error ()
    | 'e' :: _ => .error ()
    | 'E' :: _ => .error ()
    | rest => .ok (digitsToNat (cs.takeWhile isDigitChar), rest)

/-- Combine one parsed object member with the object built from the members
after it, the way sequential JavaScript property assignment does: a key
assigned again later keeps its first position but takes the later value. -/
def joinMember (k : String) (v : Json) (l : List (String × Json)) : List (String × Json) :=
  match jlookup l k with
  | some w => (k, w) :: jdelete l k
  | none => (k, v) :: l

/-- The character denoted by a single-character escape, `\uXXXX` aside. -/
def escCharVal (e : Char) : Except Unit Char :=
  if e = '"' then .ok '"'
  else if e = '\\' then .ok '\\'
  else if e = '/' then .ok '/'
  else if e = 'b' then .ok '\x08'
  else if e = 'f' then .ok '\x0c'
  else if e = 'n' then .ok '\x0a'
  else if e = 'r' then .ok '\x0d'
  else if e = 't' then .ok '\x09'
  else .error ()

/-- Consume one unit of a JSON string body: the closing quote (`none`), an
escape sequence or a plain character. A `\uXXXX` escape denoting a
surrogate is rejected (model restriction: a lone UTF-16 surrogate is not
a Unicode scalar). -/
def parseStrStep (cs : List Char) : Except Unit (Option Char × List Char) :=
  match cs with
  | [] => .error ()
  | c :: rest =>
    if c = '"' then .ok (none, rest)
    else if c = '\\' then
      match rest with
      | 'u' :: h1 :: h2 :: h3 :: h4 :: rest2 =>
        (match hexVal h1, hexVal h2, hexVal h3, hexVal h4 with
        | some a, some b, some cc, some d =>
          if 0xd800 ≤ a * 4096 + b * 256 + cc * 16 + d ∧ a * 4096 + b * 256 + cc * 16 + d < 0xe000
          then .error ()
          else .ok (some (Char.ofNat (a * 4096 + b * 256 + cc * 16 + d)), rest2)
        | _, _, _, _ => .error ())
      | e :: rest2 =>
        (match escCharVal e with
        | .ok d => .ok (some d, rest2)
        | .error e2 => .error e2)
      | [] => .error ()
    else if c.toNat < 32 then .error ()
    else .ok (some c, rest)

def parseStrRest : Nat → List Char → Except Unit (List Char × List Char)
  | 0, _ => .error ()
  | f + 1, cs =>
    match parseStrStep cs with
    | .ok (none, rest) => .ok ([], rest)
    | .ok (some c, rest) =>
      (match parseStrRest f rest with
      | .ok (l, r) => .ok (c :: l, r)
      | .error e => .error e)
    | .error e => .error e

mutual

/-- Parse one JSON value (leading whitespace allowed). -/
def parseVal : Nat → List Char → Except Unit (Json × List Char)
  | 0, _ => .error ()
  | f + 1, cs =>
    match skipWs cs with
    | 'n' :: 'u' :: 'l' :: 'l' :: rest => .ok (.null, rest)
    | 't' :: 'r' :: 'u' :: 'e' :: rest => .ok (.bool true, rest)
    | 'f' :: 'a' :: 'l' :: 's' :: 'e' :: rest => .ok (.bool false, rest)
    | '"' :: rest =>
      match parseStrRest f rest with
      | .ok (l, r) => .ok (.str (String.mk l), r)
      | .error e => .error e
    | '-' :: rest =>
      match parseNat rest with
      | .ok (n, r) => .ok (.num (-(n : Int)), r)
      | .error e => .error e
    | '[' :: rest =>
      (match skipWs rest with
      | ']' :: r => .ok (.arr [], r)
      | _ =>
        match parseElems f rest with
        | .ok (l, r) => .ok (.arr l, r)
        | .error e => .error e)
    | '\x7b' :: rest =>
      (match skipWs rest with
      | '\x7d' :: r => .ok (.obj [], r)
      | _ =>
        match parseFields f rest with
        | .ok (l, r) => .ok (.obj l, r)
        | .error e => .error e)
    | c :: rest =>
      if isDigitChar c then
        match parseNat (c :: rest) with
        | .ok (n, r) => .ok (.num (n : Int), r)
        | .error e => .error e
      else .error ()
    | [] => .error ()

/-- Parse the comma-separated elements of a non-empty array, including the
closing bracket. -/
def parseElems : Nat → List Char → Except Unit (List Json × List Char)
  | 0, _ => .error ()
  | f + 1, cs =>
    match parseVal f cs with
    | .ok (v, rest) =>
      (match skipWs rest with
      | ',' :: rest2 =>
        match parseElems f rest2 with
        | .ok (l, r) => .ok (v :: l, r)
        | .error e => .error e
      | ']' :: rest2 => .ok ([v], rest2)
      | _ => .error ())
    | .error e => .error e

/-- Parse the comma-separated members of a non-empty object, including the
closing brace. Duplicate keys follow `JSON.parse`: the later value wins,
at the first occurrence's position. -/
def parseFields : Nat → List Char → Except Unit (List (String × Json) × List Char)
  | 0, _ => .error ()
  | f + 1, cs =>
    match skipWs cs with
    | '"' :: rest =>
      (match parseStrRest f rest with
      | .ok (kl, rest2) =>
        (match skipWs rest2 with
        | ':' :: rest3 =>
          (match parseVal f rest3 with
          | .ok (v, rest4) =>
            (match skipWs rest4 with
            | ',' :: rest5 =>
              (match parseFields f rest5 with
              | .ok (l, r) => .ok (joinMember (String.mk kl) v l, r)
              | .error e => .error e)
            | '\x7d' :: rest5 => .ok ([(String.mk kl, v)], rest5)
            | _ => .error ())
          | .error e => .error e)
        | _ => .error ())
      | .error e => .error e)
    | _ => .error ()

end

/-- `JSON.parse`: a full parse of the input, trailing whitespace allowed. -/
def parseJson (s : String) : Except Unit Json :=
  match parseVal (s.data.length + 1) s.data with
  | .ok (v, rest) => if skipWs rest = [] then .ok v else .error ()
  | .error e => .error e

/-- `deepClone(obj)` from the background script:
`JSON.parse(JSON.stringify(obj))`. Stringify output always re-parses, so
the error fallback is unreachable. -/
def deepClone (v : Json) : Json :=
  match parseJson (stringify v) with
  | .ok w => w
  | .error _ => .null

/-! ## Transport codec: btoa / atob and the UTF-8 pipeline

`b64EncodeUnicode` is `btoa` applied to the UTF-8 bytes of the string
(`encodeURIComponent` percent-encodes exactly the UTF-8 bytes and the
regex replace turns each `%XX` back into the raw byte, unescaped ASCII
passing through as its own byte). `b64DecodeUnicode` is the reverse:
`atob`, then percent-encode every byte, then `decodeURIComponent`, i.e.
a UTF-8 decode that throws on malformed sequences. -/

/-- The standard base64 alphabet `btoa` uses (value 62 is `+`,
value 63 is `/`). -/
def b64Char (n : Nat) : Char :=
  if n < 26 then Char.ofNat (65 + n)
  else if n < 52 then Char.ofNat (97 + (n - 26))
  else if n < 62 then Char.ofNat (48 + (n - 52))
  else if n = 62 then '+'
  else '/'

/-- Value of a base64 alphabet character (`=` and foreign characters map
to `none`, on which `atob` throws). -/
def b64Val (c : Char) : Option Nat :=
  if 65 ≤ c.toNat ∧ c.toNat ≤ 90 then some (c.toNat - 65)
  else if 97 ≤ c.toNat ∧ c.toNat ≤ 122 then some (c.toNat - 97 + 26)
  else if 48 ≤ c.toNat ∧ c.toNat ≤ 57 then some (c.toNat - 48 + 52)
  else if c = '+' then some 62
  else if c = '/' then some 63
  else none

/-- `btoa`: base64 encoding of a byte sequence, with `=` padding. -/
def b64Encode : List Nat → List Char
  | [] => []
  | [a] => [b64Char (a / 4), b64Char (a % 4 * 16), '=', '=']
  | [a, b] => [b64Char (a / 4), b64Char (a % 4 * 16 + b / 16), b64Char (b % 16 * 4), '=']
  | a :: b :: c :: rest =>
    b64Char (a / 4) :: b64Char (a % 4 * 16 + b / 16) ::
    b64Char (b % 16 * 4 + c / 64) :: b64Char (c % 64) :: b64Encode rest

/-- `atob`: base64 decoding, throwing on input that is not a padded
base64 string. -/
def b64Decode : List Char → Except Unit (List Nat)
  | [] => .ok []
  | c1 :: c2 :: c3 :: c4 :: rest =>
    (match b64Val c1, b64Val c2 with
    | some v1, some v2 =>
      if c3 = '=' ∧ c4 = '=' ∧ rest = [] then .ok [v1 * 4 + v2 / 16]
      else
        match b64Val c3 with
        | some v3 =>
          if c4 = '=' ∧ rest = [] then .ok [v1 * 4 + v2 / 16, v2 % 16 * 16 + v3 / 4]
          else
            match b64Val c4 with
            | some v4 =>
              (match b64Decode rest with
              | .ok bs =>
                .ok ((v1 * 4 + v2 / 16) :: (v2 % 16 * 16 + v3 / 4) :: (v3 % 4 * 64 + v4) :: bs)
              | .error e => .error e)
            | none => .error ()
        | none => .error ()
    | _, _ => .error ())
  | _ => .error ()

/-- UTF-8 bytes of one Unicode scalar value. -/
def utf8EncodeChar (c : Char) : List Nat :=
  if c.toNat < 0x80 then [c.toNat]
  else if c.toNat < 0x800 then [0xc0 + c.toNat / 64, 0x80 + c.toNat % 64]
  else if c.toNat < 0x10000 then
    [0xe0 + c.toNat / 4096, 0x80 + c.toNat / 64 % 64, 0x80 + c.toNat % 64]
  else
    [0xf0 + c.toNat / 262144, 0x80 + c.toNat / 4096 % 64, 0x80 + c.toNat / 64 % 64,
      0x80 + c.toNat % 64]

/-- UTF-8 bytes of a string. -/
def utf8Encode (s : String) : List Nat :=
  (s.data.map utf8EncodeChar).flatten

/-- Is the byte a UTF-8 continuation byte. -/
def isCont (b : Nat) : Bool := 0x80 ≤ b && b < 0xc0

/-- Assemble the scalar of a two-byte UTF-8 sequence, checking the
continuation byte. -/
def utf8Scalar2 (b b1 : Nat) : Except Unit Char :=
  if isCont b1 then .ok (Char.ofNat ((b - 0xc0) * 64 + (b1 - 0x80))) else .error ()

/-- Assemble the scalar of a three-byte UTF-8 sequence, rejecting overlong
forms and surrogates. -/
def utf8Scalar3 (b b1 b2 : Nat) : Except Unit Char :=
  if isCont b1 ∧ isCont b2 then
    if 0x800 ≤ (b - 0xe0) * 4096 + (b1 - 0x80) * 64 + (b2 - 0x80) ∧
        ((b - 0xe0) * 4096 + (b1 - 0x80) * 64 + (b2 - 0x80) < 0xd800 ∨
          0xe000 ≤ (b - 0xe0) * 4096 + (b1 - 0x80) * 64 + (b2 - 0x80)) then
      .ok (Char.ofNat ((b - 0xe0) * 4096 + (b1 - 0x80) * 64 + (b2 - 0x80)))
    else .error ()
  else .error ()

/-- Assemble the scalar of a four-byte UTF-8 sequence, rejecting overlong
and out-of-range forms. -/
def utf8Scalar4 (b b1 b2 b3 : Nat) : Except Unit Char :=
  if isCont b1 ∧ isCont b2 ∧ isCont b3 then
    if 0x10000 ≤ (b - 0xf0) * 262144 + (b1 - 0x80) * 4096 + (b2 - 0x80) * 64 + (b3 - 0x80) ∧
        (b - 0xf0) * 262144 + (b1 - 0x80) * 4096 + (b2 - 0x80) * 64 + (b3 - 0x80) < 0x110000 then
      .ok (Char.ofNat ((b - 0xf0) * 262144 + (b1 - 0x80) * 4096 + (b2 - 0x80) * 64 + (b3 - 0x80)))
    else .error ()
  else .error ()

/-- Decode one UTF-8 sequence from the front of the byte list, returning
the scalar and the remaining bytes; throws on a malformed lead, truncated
sequence, overlong form, surrogate or out-of-range scalar, the way
`decodeURIComponent` throws `URIError`. -/
def utf8Step (bs : List Nat) : Except Unit (Char × List Nat) :=
  match bs with
  | [] => .error ()
  | b :: rest =>
    if b < 0x80 then .ok (Char.ofNat b, rest)
    else if b < 0xc2 then .error ()
    else if b < 0xe0 then
      match rest with
      | b1 :: rest1 =>
        (match utf8Scalar2 b b1 with
        | .ok c => .ok (c, rest1)
        | .error e => .error e)
      | [] => .error ()
    else if b < 0xf0 then
      match rest with
      | b1 :: b2 :: rest2 =>
        (match utf8Scalar3 b b1 b2 with
        | .ok c => .ok (c, rest2)
        | .error e => .error e)
      | _ => .error ()
    else if b < 0xf5 then
      match rest with
      | b1 :: b2 :: b3 :: rest3 =>
        (match utf8Scalar4 b b1 b2 b3 with
        | .ok c => .ok (c, rest3)
        | .error e => .error e)
      | _ => .error ()
    else .error ()

/-- Fuel-driven UTF-8 decode loop; `utf8Decode` supplies fuel that is
always sufficient because each step consumes at least one byte. -/
def utf8DecodeF : Nat → List Nat → Except Unit (List Char)
  | _, [] => .ok []
  | 0, _ :: _ => .error ()
  | f + 1, b :: rest =>
    match utf8Step (b :: rest) with
    | .ok (c, rest1) => (utf8DecodeF f rest1).map (c :: ·)
    | .error _ => .error ()

/-- Full UTF-8 decoding of a byte list. -/
def utf8Decode (bs : List Nat) : Except Unit (List Char) :=
  utf8DecodeF bs.length bs

/-- `b64EncodeUnicode` (background script and `TamperApi.b64EncodeUnicode`
in the page script, which are the same code): base64 of the UTF-8 bytes. -/
def b64EncodeUnicode (s : String) : String :=
  String.mk (b64Encode (utf8Encode s))

/-- `b64DecodeUnicode`: `atob` then UTF-8 decode; throws on input that is
not base64 or whose bytes are not well-formed UTF-8. -/
def b64DecodeUnicode (s : String) : Except Unit String :=
  match b64Decode s.data with
  | .ok bytes =>
    (match utf8Decode bytes with
    | .ok chars => .ok (String.mk chars)
    | .error e => .error e)
  | .error e => .error e

/-- `decodeReqModifyOpts(str)`: `JSON.parse(b64DecodeUnicode(str))`. -/
def decodeReqModifyOpts (s : String) : Except Unit Json :=
  match b64DecodeUnicode s with
  | .ok t => parseJson t
  | .error e => .error e

/-! ## Codec round trips -/

theorem b64Val_b64Char : ∀ n < 64, b64Val (b64Char n) = some n := by decide

theorem b64Char_ne_pad : ∀ n < 64, b64Char n ≠ '=' := by decide

theorem b64_roundtrip : ∀ bs : List Nat, (∀ b ∈ bs, b < 256) →
    b64Decode (b64Encode bs) = .ok bs
  | [], _ => rfl
  | [a], h => by
    have ha : a < 256 := h a (by simp)
    simp only [b64Encode, b64Decode]
    rw [b64Val_b64Char (a / 4) (by omega), b64Val_b64Char (a % 4 * 16) (by omega)]
    simp
    omega
  | [a, b], h => by
    have ha : a < 256 := h a (by simp)
    have hb : b < 256 := h b (by simp)
    simp only [b64Encode, b64Decode]
    rw [b64Val_b64Char (a / 4) (by omega), b64Val_b64Char (a % 4 * 16 + b / 16) (by omega),
      b64Val_b64Char (b % 16 * 4) (by omega)]
    simp [b64Char_ne_pad (b % 16 * 4) (by omega)]
    omega
  | [a, b, c], h => by
    have ha : a < 256 := h a (by simp)
    have hb : b < 256 := h b (by simp)
    have hc : c < 256 := h c (by simp)
    simp only [b64Encode, b64Decode]
    rw [b64Val_b64Char (a / 4) (by omega), b64Val_b64Char (a % 4 * 16 + b / 16) (by omega),
      b64Val_b64Char (b % 16 * 4 + c / 64) (by omega), b64Val_b64Char (c % 64) (by omega)]
    simp [b64Char_ne_pad (b % 16 * 4 + c / 64) (by omega), b64Char_ne_pad (c % 64) (by omega),
      show b64Decode [] = .ok [] from rfl]
    omega
  | a :: b :: c :: d :: rest, h => by
    have ha : a < 256 := h a (by simp)
    have hb : b < 256 := h b (by simp)
    have hc : c < 256 := h c (by simp)
    have ih := b64_roundtrip (d :: rest) (fun x hx => h x (by simp at hx ⊢; tauto))
    simp only [b64Encode, b64Decode]
    rw [b64Val_b64Char (a / 4) (by omega), b64Val_b64Char (a % 4 * 16 + b / 16) (by omega),
      b64Val_b64Char (b % 16 * 4 + c / 64) (by omega), b64Val_b64Char (c % 64) (by omega)]
    simp [b64Char_ne_pad (b % 16 * 4 + c / 64) (by omega), b64Char_ne_pad (c % 64) (by omega),
      ih]
    omega

theorem char_valid_toNat (c : Char) :
    c.toNat < 0xd800 ∨ (0xe000 ≤ c.toNat ∧ c.toNat < 0x110000) := by
  have h := c.valid
  simp only [UInt32.isValidChar, Nat.isValidChar] at h
  exact h

theorem utf8EncodeChar_lt_256 (c : Char) : ∀ b ∈ utf8EncodeChar c, b < 256 := by
  have hv := char_valid_toNat c
  intro b hb
  by_cases h1 : c.toNat < 0x80
  · simp only [utf8EncodeChar, if_pos h1, List.mem_singleton] at hb
    omega
  · by_cases h2 : c.toNat < 0x800
    · simp only [utf8EncodeChar, if_neg h1, if_pos h2, List.mem_cons, List.mem_singleton,
        List.not_mem_nil, or_false] at hb
      rcases hb with rfl | rfl <;> omega
    · by_cases h3 : c.toNat < 0x10000
      · simp only [utf8EncodeChar, if_neg h1, if_neg h2, if_pos h3, List.mem_cons,
          List.not_mem_nil, or_false] at hb
        rcases hb with rfl | rfl | rfl <;> omega
      · simp only [utf8EncodeChar, if_neg h1, if_neg h2, if_neg h3, List.mem_cons,
          List.not_mem_nil, or_false] at hb
        rcases hb with rfl | rfl | rfl | rfl <;> omega

theorem utf8Step_encodeChar (c : Char) (rest : List Nat) :
    utf8Step (utf8EncodeChar c ++ rest) = .ok (c, rest) := by
  have hv := char_valid_toNat c
  have hofn : Char.ofNat c.toNat = c := Char.ofNat_toNat c
  by_cases h1 : c.toNat < 0x80
  · simp only [utf8EncodeChar, if_pos h1, List.cons_append, List.nil_append, utf8Step]
    rw [hofn]
  · by_cases h2 : c.toNat < 0x800
    · have e1 : ¬(0xc0 + c.toNat / 64 < 0x80) := by omega
      have e2 : ¬(0xc0 + c.toNat / 64 < 0xc2) := by omega
      have e3 : 0xc0 + c.toNat / 64 < 0xe0 := by omega
      have e4 : isCont (0x80 + c.toNat % 64) = true := by simp [isCont]; omega
      have s2 : utf8Scalar2 (0xc0 + c.toNat / 64) (0x80 + c.toNat % 64) = .ok c := by
        rw [utf8Scalar2, if_pos e4,
          show (0xc0 + c.toNat / 64 - 0xc0) * 64 + (0x80 + c.toNat % 64 - 0x80) = c.toNat
            from by omega, hofn]
      simp only [utf8EncodeChar, if_neg h1, if_pos h2, List.cons_append, List.nil_append,
        utf8Step]
      rw [if_neg e1, if_neg e2, if_pos e3]
      simp only [s2]
    · by_cases h3 : c.toNat < 0x10000
      · have e1 : ¬(0xe0 + c.toNat / 4096 < 0x80) := by omega
        have e2 : ¬(0xe0 + c.toNat / 4096 < 0xc2) := by omega
        have e3 : ¬(0xe0 + c.toNat / 4096 < 0xe0) := by omega
        have e4 : 0xe0 + c.toNat / 4096 < 0xf0 := by omega
        have e5 : (isCont (0x80 + c.toNat / 64 % 64) = true ∧
            isCont (0x80 + c.toNat % 64) = true) := by
          constructor <;> (simp [isCont]; omega)
        have s3 : utf8Scalar3 (0xe0 + c.toNat / 4096) (0x80 + c.toNat / 64 % 64)
            (0x80 + c.toNat % 64) = .ok c := by
          rw [utf8Scalar3, if_pos e5,
            show (0xe0 + c.toNat / 4096 - 0xe0) * 4096 + (0x80 + c.toNat / 64 % 64 - 0x80) * 64 +
              (0x80 + c.toNat % 64 - 0x80) = c.toNat from by omega]
          rw [if_pos (show 0x800 ≤ c.toNat ∧ (c.toNat < 0xd800 ∨ 0xe000 ≤ c.toNat)
            from by omega), hofn]
        simp only [utf8EncodeChar, if_neg h1, if_neg h2, if_pos h3, List.cons_append,
          List.nil_append, utf8Step]
        rw [if_neg e1, if_neg e2, if_neg e3, if_pos e4]
        simp only [s3]
      · have e1 : ¬(0xf0 + c.toNat / 262144 < 0x80) := by omega
        have e2 : ¬(0xf0 + c.toNat / 262144 < 0xc2) := by omega
        have e3 : ¬(0xf0 + c.toNat / 262144 < 0xe0) := by omega
        have e4 : ¬(0xf0 + c.toNat / 262144 < 0xf0) := by omega
        have e5 : 0xf0 + c.toNat / 262144 < 0xf5 := by omega
        have e6 : (isCont (0x80 + c.toNat / 4096 % 64) = true ∧
            isCont (0x80 + c.toNat / 64 % 64) = true ∧
            isCont (0x80 + c.toNat % 64) = true) := by
          refine ⟨by simp [isCont]; omega, by simp [isCont]; omega, by simp [isCont]; omega⟩
        have s4 : utf8Scalar4 (0xf0 + c.toNat / 262144) (0x80 + c.toNat / 4096 % 64)
            (0x80 + c.toNat / 64 % 64) (0x80 + c.toNat % 64) = .ok c := by
          rw [utf8Scalar4, if_pos e6,
            show (0xf0 + c.toNat / 262144 - 0xf0) * 262144 +
              (0x80 + c.toNat / 4096 % 64 - 0x80) * 4096 +
              (0x80 + c.toNat / 64 % 64 - 0x80) * 64 + (0x80 + c.toNat % 64 - 0x80) = c.toNat
              from by omega]
          rw [if_pos (show 0x10000 ≤ c.toNat ∧ c.toNat < 0x110000 from by omega), hofn]
        simp only [utf8EncodeChar, if_neg h1, if_neg h2, if_neg h3, List.cons_append,
          List.nil_append, utf8Step]
        rw [if_neg e1, if_neg e2, if_neg e3, if_neg e4, if_pos e5]
        simp only [s4]

theorem utf8EncodeChar_cons (c : Char) : ∃ b bs, utf8EncodeChar c = b :: bs := by
  unfold utf8EncodeChar
  repeat' split
  all_goals exact ⟨_, _, rfl⟩

theorem length_le_flatten_encode : ∀ l : List Char,
    l.length ≤ ((l.map utf8EncodeChar).flatten).length
  | [] => by simp
  | c :: rest => by
    obtain ⟨b, bs, hE⟩ := utf8EncodeChar_cons c
    have ih := length_le_flatten_encode rest
    have h1 : 1 ≤ (utf8EncodeChar c).length := by rw [hE]; simp
    simp only [List.map_cons, List.flatten_cons, List.length_cons, List.length_append]
    omega

theorem utf8DecodeF_encode : ∀ (l : List Char) (f : Nat), l.length ≤ f →
    utf8DecodeF f ((l.map utf8EncodeChar).flatten) = .ok l
  | [], f, _ => by cases f <;> rfl
  | c :: rest, f, h => by
    obtain ⟨f1, rfl⟩ : ∃ f1, f = f1 + 1 :=
      ⟨f - 1, by simp only [List.length_cons] at h; omega⟩
    have hr : rest.length ≤ f1 := by simp only [List.length_cons] at h; omega
    obtain ⟨b, bs, hE⟩ := utf8EncodeChar_cons c
    have hcons : utf8EncodeChar c ++ (rest.map utf8EncodeChar).flatten =
        b :: (bs ++ (rest.map utf8EncodeChar).flatten) := by rw [hE]; rfl
    simp only [List.map_cons, List.flatten_cons]
    rw [hcons, utf8DecodeF, ← hcons, utf8Step_encodeChar]
    show (utf8DecodeF f1 ((rest.map utf8EncodeChar).flatten)).map (c :: ·) = .ok (c :: rest)
    rw [utf8DecodeF_encode rest f1 hr]
    rfl

theorem utf8_roundtrip_list (l : List Char) :
    utf8Decode ((l.map utf8EncodeChar).flatten) = .ok l :=
  utf8DecodeF_encode l _ (length_le_flatten_encode l)


/-- `b64DecodeUnicode` inverts `b64EncodeUnicode` on every string. -/
theorem b64Unicode_roundtrip (s : String) :
    b64DecodeUnicode (b64EncodeUnicode s) = .ok s := by
  have hbytes : ∀ b ∈ utf8Encode s, b < 256 := by
    intro b hb
    simp only [utf8Encode, List.mem_flatten] at hb
    obtain ⟨l, hl, hbl⟩ := hb
    simp only [List.mem_map] at hl
    obtain ⟨c, _, rfl⟩ := hl
    exact utf8EncodeChar_lt_256 c b hbl
  simp only [b64EncodeUnicode, b64DecodeUnicode]
  rw [b64_roundtrip (utf8Encode s) hbytes]
  simp only [utf8Encode]
  rw [utf8_roundtrip_list s.data]

/-! ## JSON round trip: helper lemmas -/

/-- The characters that may legally follow a printed number without being
absorbed into it. -/
def numSafe : List Char → Bool
  | [] => true
  | c :: _ => !(isDigitChar c) && c.toNat ≠ 46 && c.toNat ≠ 101 && c.toNat ≠ 69

theorem skipWs_cons_notWs (c : Char) (l : List Char) (h : isJsonWs c = false) :
    skipWs (c :: l) = c :: l := by
  rw [skipWs, h]
  rfl

theorem string_mk_data (s : String) : String.mk s.data = s := by cases s; rfl

theorem hexVal_hexDigitChar : ∀ m < 16, hexVal (hexDigitChar m) = some m := by decide

theorem toNat_digitChar : ∀ m < 10, (digitChar m).toNat = 48 + m := by decide

theorem isDigitChar_digitChar : ∀ m < 10, isDigitChar (digitChar m) = true := by decide

theorem digitChar_ne_zero : ∀ m < 10, 1 ≤ m → digitChar m ≠ '0' := by decide

theorem natDigits_ne_nil (n : Nat) : natDigits n ≠ [] := by
  rw [natDigits]
  split
  · simp
  · simp

theorem natDigits_digits (n : Nat) : ∀ c ∈ natDigits n, isDigitChar c = true := by
  induction n using Nat.strong_induction_on with
  | _ n ih =>
    rw [natDigits]
    split
    · rename_i h
      intro c hc
      simp only [List.mem_singleton] at hc
      subst hc
      exact isDigitChar_digitChar n h
    · rename_i h
      intro c hc
      simp only [List.mem_append, List.mem_singleton] at hc
      rcases hc with hc | hc
      · exact ih (n / 10) (Nat.div_lt_self (by omega) (by omega)) c hc
      · subst hc
        exact isDigitChar_digitChar (n % 10) (by omega)

theorem natDigits_head_ne_zero (n : Nat) (h : 1 ≤ n) :
    ∀ c cs, natDigits n = c :: cs → c ≠ '0' := by
  induction n using Nat.strong_induction_on with
  | _ n ih =>
    rw [natDigits]
    split
    · rename_i h10
      intro c cs hc
      simp only [List.cons.injEq] at hc
      rw [← hc.1]
      exact digitChar_ne_zero n h10 h
    · rename_i h10
      intro c cs hc
      obtain ⟨d, ds, hd⟩ : ∃ d ds, natDigits (n / 10) = d :: ds := by
        cases hnd : natDigits (n / 10) with
        | nil => exact absurd hnd (natDigits_ne_nil _)
        | cons d ds => exact ⟨d, ds, rfl⟩
      rw [hd] at hc
      simp only [List.cons_append, List.cons.injEq] at hc
      rw [← hc.1]
      exact ih (n / 10) (Nat.div_lt_self (by omega) (by omega))
        (by omega) d ds hd

theorem digitsToNat_append_digit (l : List Char) (d : Char) :
    digitsToNat (l ++ [d]) = digitsToNat l * 10 + (d.toNat - 48) := by
  simp [digitsToNat, List.foldl_append]

theorem digitsToNat_natDigits (n : Nat) : digitsToNat (natDigits n) = n := by
  induction n using Nat.strong_induction_on with
  | _ n ih =>
    rw [natDigits]
    split
    · rename_i h
      simp [digitsToNat, toNat_digitChar n h]
    · rename_i h
      rw [digitsToNat_append_digit, ih (n / 10) (Nat.div_lt_self (by omega) (by omega)),
        toNat_digitChar (n % 10) (by omega)]
      omega

theorem takeWhile_all_append (p : Char → Bool) :
    ∀ l1 l2 : List Char, (∀ c ∈ l1, p c = true) →
      List.takeWhile p (l1 ++ l2) = l1 ++ List.takeWhile p l2
  | [], _, _ => rfl
  | c :: rest, l2, h => by
    simp only [List.cons_append, List.takeWhile_cons, h c (by simp), if_true]
    rw [takeWhile_all_append p rest l2 (fun x hx => h x (by simp [hx]))]

theorem dropWhile_all_append (p : Char → Bool) :
    ∀ l1 l2 : List Char, (∀ c ∈ l1, p c = true) →
      List.dropWhile p (l1 ++ l2) = List.dropWhile p l2
  | [], _, _ => rfl
  | c :: rest, l2, h => by
    simp only [List.cons_append, List.dropWhile_cons, h c (by simp), if_true]
    exact dropWhile_all_append p rest l2 (fun x hx => h x (by simp [hx]))

theorem takeWhile_numSafe (rest : List Char) (h : numSafe rest = true) :
    List.takeWhile isDigitChar rest = [] := by
  cases rest with
  | nil => rfl
  | cons c t =>
    simp only [numSafe, Bool.and_eq_true, Bool.not_eq_true'] at h
    simp [List.takeWhile_cons, h.1.1.1]

theorem dropWhile_numSafe (rest : List Char) (h : numSafe rest = true) :
    List.dropWhile isDigitChar rest = rest := by
  cases rest with
  | nil => rfl
  | cons c t =>
    simp only [numSafe, Bool.and_eq_true, Bool.not_eq_true'] at h
    simp [List.dropWhile_cons, h.1.1.1]

theorem parseNat_natDigits (n : Nat) (rest : List Char) (h : numSafe rest = true) :
    parseNat (natDigits n ++ rest) = .ok (n, rest) := by
  have hall := natDigits_digits n
  have htw : (natDigits n ++ rest).takeWhile isDigitChar = natDigits n := by
    rw [takeWhile_all_append isDigitChar _ _ hall, takeWhile_numSafe rest h, List.append_nil]
  have hdw : (natDigits n ++ rest).dropWhile isDigitChar = rest := by
    rw [dropWhile_all_append isDigitChar _ _ hall, dropWhile_numSafe rest h]
  obtain ⟨d, ds, hd⟩ : ∃ d ds, natDigits n = d :: ds := by
    cases hnd : natDigits n with
    | nil => exact absurd hnd (natDigits_ne_nil _)
    | cons d ds => exact ⟨d, ds, rfl⟩
  have hlead : ¬((natDigits n).length > 1 ∧ (natDigits n).headD '0' = '0') := by
    rw [natDigits]
    split
    · simp
    · rename_i h10
      rintro ⟨-, hh⟩
      obtain ⟨e, es, he⟩ : ∃ e es, natDigits (n / 10) = e :: es := by
        cases hnd : natDigits (n / 10) with
        | nil => exact absurd hnd (natDigits_ne_nil _)
        | cons e es => exact ⟨e, es, rfl⟩
      rw [he] at hh
      simp only [List.cons_append, List.headD_cons] at hh
      exact natDigits_head_ne_zero (n / 10) (by omega) e es he hh
  rw [parseNat, htw, hdw]
  rw [if_neg (by rw [hd]; simp), if_neg hlead, digitsToNat_natDigits]
  cases rest with
  | nil => rfl
  | cons c t =>
    simp only [numSafe, Bool.and_eq_true, Bool.not_eq_true', decide_eq_true_eq] at h
    obtain ⟨⟨⟨-, h46⟩, h101⟩, h69⟩ := h
    have hc46 : c ≠ '.' := by intro hx; rw [hx] at h46; exact h46 (by decide)
    have hc101 : c ≠ 'e' := by intro hx; rw [hx] at h101; exact h101 (by decide)
    have hc69 : c ≠ 'E' := by intro hx; rw [hx] at h69; exact h69 (by decide)
    split
    · rename_i heq
      injection heq with e1 e2
      exact absurd e1 hc46
    · rename_i heq
      injection heq with e1 e2
      exact absurd e1 hc101
    · rename_i heq
      injection heq with e1 e2
      exact absurd e1 hc69
    · rfl

/-- The escape-expansion of a whole string body. -/
def escList (l : List Char) : List Char := (l.map escapeChar).flatten

theorem escList_cons (c : Char) (l : List Char) :
    escList (c :: l) = escapeChar c ++ escList l := by
  simp [escList]

theorem parseStrStep_escape (c : Char) (rest : List Char) :
    parseStrStep (escapeChar c ++ rest) = .ok (some c, rest) := by
  by_cases h1 : c = '"'
  · subst h1
    rfl
  · by_cases h2 : c = '\\'
    · subst h2
      rfl
    · by_cases h3 : c = '\x08'
      · subst h3
        rfl
      · by_cases h4 : c = '\x09'
        · subst h4
          rfl
        · by_cases h5 : c = '\x0a'
          · subst h5
            rfl
          · by_cases h6 : c = '\x0c'
            · subst h6
              rfl
            · by_cases h7 : c = '\x0d'
              · subst h7
                rfl
              · by_cases h8 : c.toNat < 32
                · have hofn : Char.ofNat c.toNat = c := Char.ofNat_toNat c
                  have hdiv : c.toNat / 16 < 16 := by omega
                  have hmod : c.toNat % 16 < 16 := by omega
                  simp only [escapeChar, if_neg h1, if_neg h2, if_neg h3, if_neg h4, if_neg h5,
                    if_neg h6, if_neg h7, if_pos h8, List.cons_append, List.nil_append,
                    parseStrStep]
                  rw [if_neg (by decide), if_pos (by decide)]
                  rw [show hexVal '0' = some 0 from by decide,
                    hexVal_hexDigitChar (c.toNat / 16) hdiv, hexVal_hexDigitChar (c.toNat % 16) hmod]
                  have harith : 0 * 4096 + 0 * 256 + c.toNat / 16 * 16 + c.toNat % 16 = c.toNat := by
                    omega
                  simp only [harith]
                  rw [if_neg (by omega), hofn]
                · simp only [escapeChar, if_neg h1, if_neg h2, if_neg h3, if_neg h4, if_neg h5,
                    if_neg h6, if_neg h7, if_neg h8, List.cons_append, List.nil_append,
                    parseStrStep]

theorem parseStrRest_print : ∀ (l : List Char) (f : Nat) (rest : List Char), l.length < f →
    parseStrRest f (escList l ++ '"' :: rest) = .ok (l, rest)
  | [], f, rest, hf => by
    obtain ⟨f1, rfl⟩ : ∃ f1, f = f1 + 1 := ⟨f - 1, by omega⟩
    rw [show escList [] ++ '"' :: rest = '"' :: rest from rfl, parseStrRest]
    rw [show parseStrStep ('"' :: rest) = .ok (none, rest) from rfl]
  | c :: l, f, rest, hf => by
    obtain ⟨f1, rfl⟩ : ∃ f1, f = f1 + 1 := ⟨f - 1, by omega⟩
    rw [escList_cons, List.append_assoc, parseStrRest, parseStrStep_escape]
    show (match parseStrRest f1 (escList l ++ '"' :: rest) with
      | Except.ok (lr, r) => Except.ok (c :: lr, r)
      | Except.error e => Except.error e) = Except.ok (c :: l, rest)
    rw [parseStrRest_print l f1 rest (by simp at hf; omega)]

/-! ## JSON round trip: the main induction -/

theorem isDigitChar_not_ws (c : Char) (h : isDigitChar c = true) : isJsonWs c = false := by
  simp only [isDigitChar, Bool.and_eq_true, decide_eq_true_eq] at h
  simp only [isJsonWs]
  simp only [Bool.or_eq_false_iff, decide_eq_false_iff_not]
  omega

theorem escapeChar_len_pos (c : Char) : 1 ≤ (escapeChar c).length := by
  unfold escapeChar
  repeat' split
  all_goals simp

theorem escList_len : ∀ l : List Char, l.length ≤ ((l.map escapeChar).flatten).length
  | [] => by simp
  | c :: rest => by
    have h1 := escapeChar_len_pos c
    have ih := escList_len rest
    simp only [List.map_cons, List.flatten_cons, List.length_cons, List.length_append]
    omega

/-- The first character of a printed value: never whitespace, never one of
the structural closers/separators that the surrounding parser branches on. -/
theorem printJson_shape (v : Json) : ∃ c cs, printJson v = c :: cs ∧ isJsonWs c = false ∧
    c ≠ ']' ∧ c ≠ ',' ∧ c ≠ '\x7d' := by
  cases v with
  | null => exact ⟨'n', _, rfl, by decide, by decide, by decide, by decide⟩
  | bool b =>
    cases b with
    | true => exact ⟨'t', _, rfl, by decide, by decide, by decide, by decide⟩
    | false => exact ⟨'f', _, rfl, by decide, by decide, by decide, by decide⟩
  | num k =>
    by_cases hk : k < 0
    · refine ⟨'-', natDigits k.natAbs, ?_, by decide, by decide, by decide, by decide⟩
      simp [printJson, intChars, hk]
    · obtain ⟨d, ds, hd⟩ : ∃ d ds, natDigits k.toNat = d :: ds := by
        cases hnd : natDigits k.toNat with
        | nil => exact absurd hnd (natDigits_ne_nil _)
        | cons d ds => exact ⟨d, ds, rfl⟩
      have hdig : isDigitChar d = true := natDigits_digits k.toNat d (by rw [hd]; simp)
      have hd48 : 48 ≤ d.toNat ∧ d.toNat ≤ 57 := by
        simpa [isDigitChar] using hdig
      refine ⟨d, ds, ?_, isDigitChar_not_ws d hdig, ?_, ?_, ?_⟩
      · simp [printJson, intChars, hk, hd]
      · intro hx; rw [hx] at hd48; revert hd48; decide
      · intro hx; rw [hx] at hd48; revert hd48; decide
      · intro hx; rw [hx] at hd48; revert hd48; decide
  | str s => exact ⟨'"', _, rfl, by decide, by decide, by decide, by decide⟩
  | arr l => exact ⟨'[', _, rfl, by decide, by decide, by decide, by decide⟩
  | obj l => exact ⟨'\x7b', _, rfl, by decide, by decide, by decide, by decide⟩

theorem jlookup_eq_none (l : List (String × Json)) (k : String)
    (h : (l.map Prod.fst).contains k = false) : jlookup l k = none := by
  induction l with
  | nil => rfl
  | cons m rest ih =>
    obtain ⟨k1, v1⟩ := m
    simp only [List.map_cons, List.contains_cons, Bool.or_eq_false_iff] at h
    rw [jlookup, if_neg (by
      intro hx
      rw [hx] at h
      simpa using h.1)]
    exact ih h.2

theorem parse_print_main : ∀ f : Nat,
    (∀ v rest, jwf v = true → (printJson v).length ≤ f → numSafe rest = true →
      parseVal f (printJson v ++ rest) = .ok (v, rest)) ∧
    (∀ l rest, jwfList l = true → l ≠ [] → (printElems l).length < f →
      parseElems f (printElems l ++ ']' :: rest) = .ok (l, rest)) ∧
    (∀ l rest, jwfFields l = true → jnodupKeys (l.map Prod.fst) = true → l ≠ [] →
      (printFields l).length < f →
      parseFields f (printFields l ++ '\x7d' :: rest) = .ok (l, rest)) := by
  intro f
  induction f with
  | zero =>
    refine ⟨?_, ?_, ?_⟩
    · intro v rest _ hsz _
      obtain ⟨c, cs, hpc, -⟩ := printJson_shape v
      rw [hpc] at hsz
      simp at hsz
    · intro l rest _ hne hsz
      omega
    · intro l rest _ _ hne hsz
      omega
  | succ g ih =>
    obtain ⟨ihV, ihE, ihF⟩ := ih
    refine ⟨?_, ?_, ?_⟩
    · intro v rest hwf hsz hns
      cases v with
      | null =>
        rw [show printJson .null ++ rest = 'n' :: 'u' :: 'l' :: 'l' :: rest from rfl, parseVal,
          skipWs_cons_notWs _ _ (by decide)]
        rfl
      | bool b =>
        cases b with
        | true =>
          rw [show printJson (.bool true) ++ rest = 't' :: 'r' :: 'u' :: 'e' :: rest from rfl,
            parseVal, skipWs_cons_notWs _ _ (by decide)]
          rfl
        | false =>
          rw [show printJson (.bool false) ++ rest = 'f' :: 'a' :: 'l' :: 's' :: 'e' :: rest
            from rfl, parseVal, skipWs_cons_notWs _ _ (by decide)]
          rfl
      | num k =>
        by_cases hk : k < 0
        · rw [show printJson (.num k) ++ rest = '-' :: (natDigits k.natAbs ++ rest) from by
            simp [printJson, intChars, hk]]
          rw [parseVal, skipWs_cons_notWs _ _ (by decide)]
          simp only []
          rw [parseNat_natDigits k.natAbs rest hns]
          simp only []
          rw [show -((k.natAbs : Int)) = k from by omega]
        · obtain ⟨d, ds, hd⟩ : ∃ d ds, natDigits k.toNat = d :: ds := by
            cases hnd : natDigits k.toNat with
            | nil => exact absurd hnd (natDigits_ne_nil _)
            | cons d ds => exact ⟨d, ds, rfl⟩
          have hdig : isDigitChar d = true := natDigits_digits k.toNat d (by rw [hd]; simp)
          rw [show printJson (.num k) ++ rest = d :: (ds ++ rest) from by
            simp [printJson, intChars, hk, hd]]
          rw [parseVal, skipWs_cons_notWs _ _ (isDigitChar_not_ws d hdig)]
          split
          · rename_i heq
            injection heq with e1 e2
            rw [e1] at hdig
            exact absurd hdig (by decide)
          · rename_i heq
            injection heq with e1 e2
            rw [e1] at hdig
            exact absurd hdig (by decide)
          · rename_i heq
            injection heq with e1 e2
            rw [e1] at hdig
            exact absurd hdig (by decide)
          · rename_i heq
            injection heq with e1 e2
            rw [e1] at hdig
            exact absurd hdig (by decide)
          · rename_i heq
            injection heq with e1 e2
            rw [e1] at hdig
            exact absurd hdig (by decide)
          · rename_i heq
            injection heq with e1 e2
            rw [e1] at hdig
            exact absurd hdig (by decide)
          · rename_i heq
            injection heq with e1 e2
            rw [e1] at hdig
            exact absurd hdig (by decide)
          · rename_i heq
            injection heq with e1 e2
            subst e1
            subst e2
            rw [if_pos hdig]
            rw [show d :: (ds ++ rest) = natDigits k.toNat ++ rest from by rw [hd]; rfl]
            rw [parseNat_natDigits k.toNat rest hns]
            simp only []
            rw [show ((k.toNat : Int)) = k from by omega]
          · rename_i heq
            exact absurd heq (by simp)
      | str s =>
        have hlen : s.data.length < g := by
          have hE := escList_len s.data
          simp only [printJson, printStr, List.length_cons, List.length_append,
            List.length_singleton] at hsz
          omega
        rw [show printJson (.str s) ++ rest = '"' :: (escList s.data ++ '"' :: rest) from by
          simp [printJson, printStr, escList]]
        rw [parseVal, skipWs_cons_notWs _ _ (by decide)]
        simp only []
        rw [parseStrRest_print s.data g rest hlen]
      | arr l =>
        cases l with
        | nil =>
          rw [show printJson (.arr []) ++ rest = '[' :: ']' :: rest from rfl, parseVal,
            skipWs_cons_notWs _ _ (by decide)]
          rfl
        | cons x xs =>
          have hwfl : jwfList (x :: xs) = true := by simpa [jwf] using hwf
          have hszl : (printElems (x :: xs)).length < g := by
            simp only [printJson, List.length_cons, List.length_append,
              List.length_singleton] at hsz
            omega
          obtain ⟨c, cs, hpc, hcws, hcrb, hcc, hccb⟩ := printJson_shape x
          obtain ⟨tl, htl⟩ : ∃ tl, printElems (x :: xs) = printJson x ++ tl := by
            cases xs with
            | nil => exact ⟨[], by simp [printElems]⟩
            | cons y ys => exact ⟨',' :: printElems (y :: ys), by simp [printElems]⟩
          have hsk : skipWs (printElems (x :: xs) ++ ']' :: rest) =
              printElems (x :: xs) ++ ']' :: rest := by
            rw [htl, hpc]
            exact skipWs_cons_notWs _ _ hcws
          rw [show printJson (.arr (x :: xs)) ++ rest =
            '[' :: (printElems (x :: xs) ++ ']' :: rest) from by simp [printJson]]
          rw [parseVal, skipWs_cons_notWs _ _ (by decide)]
          simp only []
          rw [hsk]
          split
          · rename_i heq
            rw [htl, hpc] at heq
            simp only [List.cons_append, List.cons.injEq] at heq
            exact absurd heq.1 hcrb
          · rw [ihE (x :: xs) rest hwfl (by simp) hszl]
      | obj l =>
        cases l with
        | nil =>
          rw [show printJson (.obj []) ++ rest = '\x7b' :: '\x7d' :: rest from rfl, parseVal,
            skipWs_cons_notWs _ _ (by decide)]
          rfl
        | cons m ms =>
          have hwfo : jnodupKeys ((m :: ms).map Prod.fst) = true ∧ jwfFields (m :: ms) = true := by
            simpa [jwf, Bool.and_eq_true] using hwf
          have hszo : (printFields (m :: ms)).length < g := by
            simp only [printJson, List.length_cons, List.length_append,
              List.length_singleton] at hsz
            omega
          have hsk : skipWs (printFields (m :: ms) ++ '\x7d' :: rest) =
              printFields (m :: ms) ++ '\x7d' :: rest := by
            obtain ⟨k, v⟩ := m
            have hpf : ∃ tl, printFields ((k, v) :: ms) = printStr k ++ tl := by
              cases ms with
              | nil => exact ⟨':' :: printJson v, by simp [printFields]⟩
              | cons m2 ms2 =>
                exact ⟨':' :: printJson v ++ ',' :: printFields (m2 :: ms2), by
                  simp [printFields]⟩
            obtain ⟨tl, htl⟩ := hpf
            rw [htl]
            rw [show printStr k ++ tl ++ '\x7d' :: rest =
              '"' :: ((escList k.data ++ ['"']) ++ tl ++ '\x7d' :: rest) from by
              simp [printStr, escList]]
            exact skipWs_cons_notWs _ _ (by decide)
          rw [show printJson (.obj (m :: ms)) ++ rest =
            '\x7b' :: (printFields (m :: ms) ++ '\x7d' :: rest) from by simp [printJson]]
          rw [parseVal, skipWs_cons_notWs _ _ (by decide)]
          simp only []
          rw [hsk]
          split
          · rename_i heq
            obtain ⟨k, v⟩ := m
            have hpf : ∃ tl, printFields ((k, v) :: ms) = printStr k ++ tl := by
              cases ms with
              | nil => exact ⟨':' :: printJson v, by simp [printFields]⟩
              | cons m2 ms2 =>
                exact ⟨':' :: printJson v ++ ',' :: printFields (m2 :: ms2), by
                  simp [printFields]⟩
            obtain ⟨tl, htl⟩ := hpf
            rw [htl] at heq
            rw [show printStr k ++ tl ++ '\x7d' :: rest =
              '"' :: ((escList k.data ++ ['"']) ++ tl ++ '\x7d' :: rest) from by
              simp [printStr, escList]] at heq
            simp only [List.cons.injEq] at heq
            exact absurd heq.1 (by decide)
          · rw [ihF (m :: ms) rest hwfo.2 hwfo.1 (by simp) hszo]
    · intro l rest hwf hne hsz
      cases l with
      | nil => exact absurd rfl hne
      | cons x xs =>
        have hx : jwf x = true ∧ jwfList xs = true := by
          simpa [jwfList, Bool.and_eq_true] using hwf
        rw [parseElems]
        cases xs with
        | nil =>
          have hszx : (printJson x).length ≤ g := by
            simp only [printElems] at hsz
            omega
          rw [show printElems [x] ++ ']' :: rest = printJson x ++ ']' :: rest from by
            simp [printElems]]
          rw [ihV x (']' :: rest) hx.1 hszx rfl]
          rfl
        | cons y ys =>
          have hlp : 1 ≤ (printJson x).length := by
            obtain ⟨c, cs, hpc, -⟩ := printJson_shape x
            rw [hpc]
            simp
          have hszx : (printJson x).length ≤ g := by
            simp only [printElems, List.length_append, List.length_cons] at hsz
            omega
          have hszys : (printElems (y :: ys)).length < g := by
            simp only [printElems, List.length_append, List.length_cons] at hsz
            omega
          rw [show printElems (x :: y :: ys) ++ ']' :: rest =
            printJson x ++ (',' :: (printElems (y :: ys) ++ ']' :: rest)) from by
            simp [printElems]]
          rw [ihV x (',' :: (printElems (y :: ys) ++ ']' :: rest)) hx.1 hszx rfl]
          simp only []
          rw [skipWs_cons_notWs _ _ (by decide)]
          simp only []
          rw [ihE (y :: ys) rest hx.2 (by simp) hszys]
    · intro l rest hwf hnd hne hsz
      cases l with
      | nil => exact absurd rfl hne
      | cons m ms =>
        obtain ⟨k, v⟩ := m
        have hv : jwf v = true ∧ jwfFields ms = true := by
          simpa [jwfFields, Bool.and_eq_true] using hwf
        have hkc : (ms.map Prod.fst).contains k = false ∧ jnodupKeys (ms.map Prod.fst) = true := by
          simpa [jnodupKeys, Bool.and_eq_true, Bool.not_eq_true'] using hnd
        have hE := escList_len k.data
        have hlpv : 1 ≤ (printJson v).length := by
          obtain ⟨c, cs, hpc, -⟩ := printJson_shape v
          rw [hpc]
          simp
        rw [parseFields]
        cases ms with
        | nil =>
          have h1 : (printStr k).length = (k.data.map escapeChar).flatten.length + 2 := by
            simp [printStr]
          have h2 : (printFields [(k, v)]).length =
              (printStr k).length + 1 + (printJson v).length := by
            simp [printFields]
            omega
          have hklen : k.data.length < g := by omega
          have hszv : (printJson v).length ≤ g := by omega
          rw [show printFields [(k, v)] ++ '\x7d' :: rest =
            '"' :: (escList k.data ++ '"' :: (':' :: (printJson v ++ '\x7d' :: rest))) from by
            simp [printFields, printStr, escList]]
          rw [skipWs_cons_notWs _ _ (by decide)]
          simp only []
          rw [parseStrRest_print k.data g _ hklen]
          simp only []
          rw [skipWs_cons_notWs _ _ (by decide)]
          simp only []
          rw [ihV v ('\x7d' :: rest) hv.1 hszv rfl]
          rfl
        | cons m2 ms2 =>
          have h1 : (printStr k).length = (k.data.map escapeChar).flatten.length + 2 := by
            simp [printStr]
          have h2 : (printFields ((k, v) :: m2 :: ms2)).length =
              (printStr k).length + 1 + (printJson v).length + 1 +
                (printFields (m2 :: ms2)).length := by
            simp [printFields]
            omega
          have hklen : k.data.length < g := by omega
          have hszv : (printJson v).length ≤ g := by omega
          have hszms : (printFields (m2 :: ms2)).length < g := by omega
          rw [show printFields ((k, v) :: m2 :: ms2) ++ '\x7d' :: rest =
            '"' :: (escList k.data ++ '"' :: (':' :: (printJson v ++
              ',' :: (printFields (m2 :: ms2) ++ '\x7d' :: rest)))) from by
            simp [printFields, printStr, escList]]
          rw [skipWs_cons_notWs _ _ (by decide)]
          simp only []
          rw [parseStrRest_print k.data g _ hklen]
          simp only []
          rw [skipWs_cons_notWs _ _ (by decide)]
          simp only []
          rw [ihV v (',' :: (printFields (m2 :: ms2) ++ '\x7d' :: rest)) hv.1 hszv rfl]
          simp only []
          rw [skipWs_cons_notWs _ _ (by decide)]
          simp only []
          rw [ihF (m2 :: ms2) rest hv.2 hkc.2 (by simp) hszms]
          simp only []
          rw [joinMember, jlookup_eq_none _ _ hkc.1]

/-- `JSON.parse` inverts `JSON.stringify` on well-formed values. -/
theorem parse_print (v : Json) (hwf : jwf v = true) : parseJson (stringify v) = .ok v := by
  have h := (parse_print_main ((printJson v).length + 1)).1 v [] hwf (by omega) rfl
  rw [List.append_nil] at h
  show (match parseVal ((printJson v).length + 1) (printJson v) with
    | Except.ok (w, rest) => if skipWs rest = [] then Except.ok w else Except.error ()
    | Except.error e => Except.error e) = Except.ok v
  rw [h]
  rfl

/-- `deepClone` is the identity on well-formed values. -/
theorem deepClone_wf (v : Json) (h : jwf v = true) : deepClone v = v := by
  unfold deepClone
  rw [parse_print v h]

/-! ## Header transforms

`setHeaders` / `removeHeaders` / `getHeader` from the background script.
Name comparison is case-insensitive via `toLowerCase`; the model implements
the ASCII fragment of JavaScript lowercasing (header names in this engine
are ASCII). The header value type is a parameter: Chrome delivers string
values, specs may supply arbitrary JSON values and the code stores either
unchanged. -/

structure HttpHeader (α : Type) where
  name : String
  value : α
deriving Repr

def lowerChar (c : Char) : Char :=
  if 65 ≤ c.toNat ∧ c.toNat ≤ 90 then Char.ofNat (c.toNat + 32) else c

def lowerStr (s : String) : String := String.mk (s.data.map lowerChar)

/-- One iteration of `setHeaders`' outer loop: overwrite the value of every
case-insensitive occurrence of the name in the current list (keeping the
existing casing and position), else append `{name, value}` at the end. -/
def setHeadersStep {α : Type} (headers : List (HttpHeader α)) (k : String) (v : α) :
    List (HttpHeader α) :=
  if headers.any (fun h => lowerStr h.name = lowerStr k) then
    headers.map (fun h => if lowerStr h.name = lowerStr k then ⟨h.name, v⟩ else h)
  else headers ++ [⟨k, v⟩]

/-- `setHeaders(headers, toSet)`: the entries of `toSet` (a JavaScript
object, modelled as its insertion-ordered entry list) are processed in
order against the evolving header list — the source mutates `headers` in
place, so a later `toSet` entry sees headers appended by earlier ones. -/
def setHeaders {α : Type} (headers : List (HttpHeader α)) (toSet : List (String × α)) :
    List (HttpHeader α) :=
  toSet.foldl (fun hs kv => setHeadersStep hs kv.1 kv.2) headers

/-- `removeHeaders(headers, toRemove)`: lowercases the removal list, then
splices out every header whose lowercased name occurs in it (the splice
loop with index rollback is equivalent to a filter). -/
def removeHeaders {α : Type} (headers : List (HttpHeader α)) (toRemove : List String) :
    List (HttpHeader α) :=
  headers.filter (fun h => !((toRemove.map lowerStr).contains (lowerStr h.name)))

/-- `getHeader(headers, key)`: value of the first case-insensitive match,
or null. -/
def getHeader {α : Type} : List (HttpHeader α) → String → Option α
  | [], _ => none
  | h :: rest, key =>
    if lowerStr h.name = lowerStr key then some h.value else getHeader rest key

/-! ## Spec normalization -/

/-- `defaults(obj, dict)`: for each key of `dict` in order, if `obj` lacks
the key (value `undefined`), add it at the end with `dict`'s value. A key
present with value `null` is kept. -/
def defaultsFill (obj : List (String × Json)) (dict : List (String × Json)) :
    List (String × Json) :=
  dict.foldl
    (fun o kv =>
      match jlookup o kv.1 with
      | some _ => o
      | none => o ++ [(kv.1, kv.2)])
    obj

def jIsNull : Json → Bool
  | .null => true
  | _ => false

/-- The names `for (var name in arr)` pushes for an array-valued
`headers`: the decimal index string of every `null` element, in ascending
order. -/
def arrNullNames : Nat → List Json → List String
  | _, [] => []
  | i, x :: rest =>
    if jIsNull x then toString i :: arrNullNames (i + 1) rest
    else arrNullNames (i + 1) rest

/-- The `doNormalize` closure applied to one object: move every
`headers` entry whose value is `null` out of `headers` and push its name
onto `remove`, in iteration order. Pushing onto a `remove` that is not an
array throws. When `headers` is an array, `for…in` enumerates its index
strings: `null` elements are `delete`d (the hole is skipped by every later
enumeration, so the model drops the element) and their index strings are
pushed onto `remove`. Other non-object `headers` values are left alone:
strings enumerate to their (never-null) characters, primitives and
`null`/`undefined` do not enumerate, so no entry qualifies. -/
def doNormalizeObj (kvs : List (String × Json)) : Except Unit (List (String × Json)) :=
  match jlookup kvs "headers" with
  | some (.obj hs) =>
    if (hs.filter (fun kv => jIsNull kv.2)).isEmpty then .ok kvs
    else
      match jlookup kvs "remove" with
      | some (.arr rl) =>
        .ok (jset (jset kvs "headers" (.obj (hs.filter (fun kv => !(jIsNull kv.2))))) "remove"
          (.arr (rl ++ ((hs.filter (fun kv => jIsNull kv.2)).map (fun kv => Json.str kv.1)))))
      | _ => .error ()
  | some (.arr l) =>
    if (l.filter (fun x => jIsNull x)).isEmpty then .ok kvs
    else
      match jlookup kvs "remove" with
      | some (.arr rl) =>
        .ok (jset (jset kvs "headers" (.arr (l.filter (fun x => !(jIsNull x))))) "remove"
          (.arr (rl ++ (arrNullNames 0 l).map Json.str)))
      | _ => .error ()
  | _ => .ok kvs

/-- `TamperStore.prototype._normalizeTamperSpec`. The thrown-exception
cases mirror the source: `defaults(null, …)` throws reading a property of
`null` (so a `null` spec or a `null` `response` throws), and a primitive
spec throws at `doNormalize(tamperSpec.response)`, whose receiver is then
`undefined` (the `defaults` writes on a primitive were silently
discarded). An ARRAY spec succeeds: `defaults` attaches `headers`,
`remove`, `response` and `opts` as expando properties the array accepts,
both `doNormalize` passes run over those fresh empty expandos, and none
of it is visible to JSON serialization — the result is the bare array. A
primitive (or array) `response` also passes: the `defaults` writes are
discarded (or JSON-invisible) and `for…in` over the `undefined` (or
empty-expando) `headers` of such a `response` iterates nothing. -/
def normalizeTamperSpec (t : Json) : Except Unit Json :=
  match t with
  | .null => .error ()
  | .arr l => .ok (.arr l)
  | .obj kvs =>
    let kvs1 := defaultsFill kvs
      [("headers", .obj []), ("remove", .arr []), ("response", .obj []), ("opts", .obj [])]
    (match jlookup kvs1 "response" with
    | some .null => .error ()
    | some rv =>
      let kvs2 :=
        match rv with
        | .obj rkvs =>
          jset kvs1 "response" (.obj (defaultsFill rkvs [("headers", .obj []), ("remove", .arr [])]))
        | _ => kvs1
      (match doNormalizeObj kvs2 with
      | .ok kvs3 =>
        (match jlookup kvs3 "response" with
        | some (.obj rk) =>
          (match doNormalizeObj rk with
          | .ok rk2 => .ok (.obj (jset kvs3 "response" (.obj rk2)))
          | .error e => .error e)
        | some _ => .ok (.obj kvs3)
        | none => .error ())
      | .error e => .error e)
    | none => .error ())
  | _ => .error ()

/-! ## The TamperStore -/

/-- One registered pattern association, as `addPattern` stores it. A
`RegexSpec` is a pattern string plus optional flag string. The model keeps
the association's fields structurally; `none` is an absent
(`undefined`) field. -/
structure PatternEntry where
  regexes : Option (List (String × Option String))
  urls : Option (List String)
  tamper : Json
deriving Repr

/-- Pattern-registration parameters before validation (`tamper` may be
absent, which `addPattern` rejects). -/
structure PatternParams where
  regexes : Option (List (String × Option String))
  urls : Option (List String)
  tamper : Option Json
deriving Repr

/-- The store: `_data` (an insertion-ordered string-keyed object) and
`_patternMods` (newest first). The source's methods close over the single
global `tamperState` instance, which the model threads explicitly. -/
structure TamperStore where
  data : List (String × Json)
  patternMods : List PatternEntry
deriving Repr

def TamperStore.empty : TamperStore := ⟨[], []⟩

def makeKey (tabId frameId : Int) (url : String) : String :=
  toString tabId ++ "::" ++ toString frameId ++ "::" ++ url

def TamperStore.addPattern (st : TamperStore) (p : PatternParams) : Except Unit TamperStore :=
  if p.regexes.isNone ∧ p.urls.isNone then .error ()
  else
    match p.tamper with
    | none => .error ()
    | some t =>
      match normalizeTamperSpec (deepClone t) with
      | .ok t2 => .ok { st with patternMods := ⟨p.regexes, p.urls, t2⟩ :: st.patternMods }
      | .error e => .error e

def TamperStore.setDirect (st : TamperStore) (key : String) (value : Json) :
    Except Unit TamperStore :=
  match normalizeTamperSpec (deepClone value) with
  | .ok v1 =>
    let v2 :=
      match v1 with
      | .obj kvs => Json.obj (jset kvs "key" (.str key))
      | other => other
    .ok { st with data := jset st.data key v2 }
  | .error e => .error e

def TamperStore.getDirect (st : TamperStore) (key : String) : Option Json :=
  match jlookup st.data key with
  | none => none
  | some .null => none
  | some v => some (deepClone v)

def TamperStore.removeDirect (st : TamperStore) (key : String) : TamperStore :=
  { st with data := jdelete st.data key }

def TamperStore.set (st : TamperStore) (tabId frameId : Int) (url : String) (modifyOpts : Json) :
    Except Unit TamperStore :=
  st.setDirect (makeKey tabId frameId url) modifyOpts

def TamperStore.remove (st : TamperStore) (tabId frameId : Int) (url : String) : TamperStore :=
  st.removeDirect (makeKey tabId frameId url)

/-- `modifyOpts.requestId === requestId`, for one stored value (Chrome
request ids are strings; strict equality with the stored `requestId`
field, which is `null` until bound). -/
def reqIdMatches (v : Json) (rid : String) : Bool :=
  match v with
  | .obj kvs =>
    (match jlookup kvs "requestId" with
    | some (.str s) => s = rid
    | _ => false)
  | _ => false

def TamperStore.getByRequestId (st : TamperStore) (rid : String) : Option Json :=
  match st.data.find? (fun kv => reqIdMatches kv.2 rid) with
  | some kv => some (deepClone kv.2)
  | none => none

/-- Whether one pattern association matches a url, given a regex matcher
`rm` (JavaScript `RegExp` semantics are not modelled; `rm r url` stands
for the truthiness of `url.match(makeRegex(r))`). An array-valued
`regexes` is always truthy — even empty — so `urls` is consulted only when
`regexes` is absent. The `none`/`none` case cannot be built through
`addPattern`. -/
def patternMatches (rm : (String × Option String) → String → Bool) (e : PatternEntry)
    (url : String) : Bool :=
  match e.regexes with
  | some rs => rs.any (fun r => rm r url)
  | none => (e.urls.getD []).any (fun u => url = u)

def TamperStore.scanPatternMods (rm : (String × Option String) → String → Bool)
    (st : TamperStore) (url : String) : Option Json :=
  match st.patternMods.find? (fun e => patternMatches rm e url) with
  | some e => some (deepClone e.tamper)
  | none => none

def TamperStore.get (rm : (String × Option String) → String → Bool) (st : TamperStore)
    (tabId frameId : Int) (url : String) : Option Json :=
  match st.getDirect (makeKey tabId frameId url) with
  | some v => some v
  | none => st.scanPatternMods rm url

/-! ## Request lifecycle handlers -/

structure ReqDetails where
  tabId : Int
  frameId : Int
  url : String
deriving Repr

structure SendDetails where
  tabId : Int
  frameId : Int
  url : String
  requestId : String
  requestHeaders : List (HttpHeader Json)

structure RespDetails where
  tabId : Int
  frameId : Int
  requestId : String
  statusCode : Int
  responseHeaders : List (HttpHeader Json)

/-- Property read on a value: `undefined` (`none`) for a missing key or a
primitive receiver. Callers guard against `null`/`undefined` receivers,
whose property reads throw. -/
def jFieldOpt (v : Json) (k : String) : Option Json :=
  match v with
  | .obj kvs => jlookup kvs k
  | _ => none

/-- `for (var key in v)` with values: an object enumerates its entries, a
string its indexed characters, an array its indexed elements, primitives
nothing. -/
def jsEnumPairs (v : Json) : List (String × Json) :=
  match v with
  | .obj kvs => kvs
  | .str s => s.data.mapIdx (fun i c => (toString i, Json.str (String.mk [c])))
  | .arr l => l.mapIdx (fun i x => (toString i, x))
  | _ => []

/-- `toRemove.map(str => str.toLowerCase())`: throws unless the value is
an array of strings (`.map` is not a function on other truthy values, and
`toLowerCase` is not one on non-string elements). -/
def toLowerList : Json → Except Unit (List String)
  | .arr l =>
    l.foldr
      (fun x acc =>
        match x, acc with
        | .str s, .ok r => .ok (lowerStr s :: r)
        | _, _ => .error ())
      (.ok [])
  | _ => .error ()

/-- `value.key = v` on a decoded JSON value: throws on `null`, silently
discards on other primitives (non-strict mode; arrays grouped with
primitives as in the normalizer). -/
def jsSetField (v : Json) (k : String) (x : Json) : Except Unit Json :=
  match v with
  | .null => .error ()
  | .obj kvs => .ok (.obj (jset kvs k x))
  | other => .ok other

/-- The response-phase header transform of the onHeadersReceived listener:
`null` when the spec's `response` is falsy, otherwise the incoming headers
with `response.headers` set and `response.remove` removed (either step
skipped when falsy; the remove step can throw). -/
def applyRespTransforms (ro : Json) (hs : List (HttpHeader Json)) :
    Except Unit (Option (List (HttpHeader Json))) :=
  if jTruthyOpt (jFieldOpt ro "response") then
    let rv := (jFieldOpt ro "response").getD .null
    let h1 :=
      if jTruthyOpt (jFieldOpt rv "headers") then
        setHeaders hs (jsEnumPairs ((jFieldOpt rv "headers").getD .null))
      else hs
    if jTruthyOpt (jFieldOpt rv "remove") then
      match toLowerList ((jFieldOpt rv "remove").getD .null) with
      | .ok lower => .ok (some (removeHeaders h1 lower))
      | .error e => .error e
    else .ok (some h1)
  else .ok none

/-- `checkIfRedirect(details)`: `none` for a non-redirect status; the
`Location` value for a 301/302; throws when a redirect carries no
`Location` (or a `null` one — `getHeader` reports both as `null`). The
headers passed in are the ones `details.responseHeaders` aliases at call
time — the response transform mutates that array in place, so the check
sees the transformed headers. A non-string `Location` value (only
plantable by a spec) is outside the model. -/
def checkIfRedirect (d : RespDetails) (effHeaders : List (HttpHeader Json)) :
    Except Unit (Option String) :=
  if d.statusCode = 301 ∨ d.statusCode = 302 then
    match getHeader effHeaders "Location" with
    | some (.str s) => .ok (some s)
    | _ => .error ()
  else .ok none

/-- The `chrome.webRequest.onBeforeRequest` listener: recognize the
`$TamperApi:` tag via `/^(.*)(\$TamperApi:)([^\/]*)$/`, decode the token,
null the `requestId`, store under `(tab, frame, origUrl)` and redirect to
the original url. A thrown exception (undecodable token, null spec,
normalization failure) leaves the store as it was at the throw point and
produces no blocking response. -/
def tagChars : List Char := "$TamperApi:".data

/-- The match of `/^(.*)(\$TamperApi:)([^\/]*)$/` against a url, split
into groups 1 and 3: the greedy `.*` takes the longest prefix such that
the rest starts with the tag and finishes without a path separator. -/
def splitTag : List Char → Option (List Char × List Char)
  | [] => none
  | c :: rest =>
    match splitTag rest with
    | some (p, t) => some (c :: p, t)
    | none =>
      if tagChars.isPrefixOf (c :: rest) then
        (if ((c :: rest).drop 11).all (fun ch => ch ≠ '/') then some ([], (c :: rest).drop 11)
         else none)
      else none

def onBeforeRequest (st : TamperStore) (d : ReqDetails) :
    TamperStore × Except Unit (Option String) :=
  match splitTag d.url.data with
  | none => (st, .ok none)
  | some (origUrlChars, tokenChars) =>
    (match decodeReqModifyOpts (String.mk tokenChars) with
    | .error e => (st, .error e)
    | .ok opts =>
      (match jsSetField opts "requestId" Json.null with
      | .error e => (st, .error e)
      | .ok opts1 =>
        (match TamperStore.set st d.tabId d.frameId (String.mk origUrlChars) opts1 with
        | .ok st1 => (st1, .ok (some (String.mk origUrlChars)))
        | .error e => (st, .error e))))

/-- The `chrome.webRequest.onBeforeSendHeaders` listener: resolve a spec
via `get`, apply the request-phase `headers`/`remove` transforms, bind the
spec's `requestId` to the concrete request id and re-`set` it under the
same composite key. -/
def onBeforeSendHeaders (rm : (String × Option String) → String → Bool) (st : TamperStore)
    (d : SendDetails) : TamperStore × Except Unit (Option (List (HttpHeader Json))) :=
  match TamperStore.get rm st d.tabId d.frameId d.url with
  | none => (st, .ok none)
  | some ro =>
    let h1 :=
      if jTruthyOpt (jFieldOpt ro "headers") then
        setHeaders d.requestHeaders (jsEnumPairs ((jFieldOpt ro "headers").getD .null))
      else d.requestHeaders
    (match
      (if jTruthyOpt (jFieldOpt ro "remove") then
        match toLowerList ((jFieldOpt ro "remove").getD .null) with
        | .ok lower => .ok (removeHeaders h1 lower)
        | .error e => .error e
      else .ok h1 : Except Unit (List (HttpHeader Json))) with
    | .error e => (st, .error e)
    | .ok h2 =>
      (match jsSetField ro "requestId" (.str d.requestId) with
      | .error e => (st, .error e)
      | .ok ro1 =>
        (match TamperStore.set st d.tabId d.frameId d.url ro1 with
        | .ok st1 => (st1, .ok (some h2))
        | .error e => (st, .error e))))

/-- The `chrome.webRequest.onHeadersReceived` listener. Store updates
happen in source order, so an exception thrown at any point (malformed
redirect, broken spec fields) leaves exactly the updates made before the
throw. -/
def onHeadersReceived (st : TamperStore) (d : RespDetails) :
    TamperStore × Except Unit (Option (List (HttpHeader Json))) :=
  match st.getByRequestId d.requestId with
  | none => (st, .ok none)
  | some ro =>
    (match applyRespTransforms ro d.responseHeaders with
    | .error e => (st, .error e)
    | .ok respHeaders =>
      (match checkIfRedirect d (respHeaders.getD d.responseHeaders) with
      | .error e => (st, .error e)
      | .ok none =>
        (match jFieldOpt ro "opts" with
        | none => (st, .error ())
        | some .null => (st, .error ())
        | some ov =>
          if jTruthyOpt (jFieldOpt ov "once") then
            (match jFieldOpt ro "key" with
            | some (.str k) => (st.removeDirect k, .ok respHeaders)
            | _ => (st, .ok respHeaders))
          else (st, .ok respHeaders))
      | .ok (some target) =>
        let st1 :=
          match jFieldOpt ro "key" with
          | some (.str k) => st.removeDirect k
          | _ => st
        (match TamperStore.set st1 d.tabId d.frameId target ro with
        | .ok st2 => (st2, .ok respHeaders)
        | .error e => (st1, .error e))))

/-- `TamperApi.makeUrl` from the page script: append the tag and the
transport-encoded spec. -/
def makeUrl (url : String) (tamperSpec : Json) : String :=
  url ++ "$TamperApi:" ++ b64EncodeUnicode (stringify tamperSpec)

/-! ## Association-list lemmas -/

theorem jlookup_jset_self (l : List (String × Json)) (k : String) (v : Json) :
    jlookup (jset l k v) k = some v := by
  induction l with
  | nil => simp [jset, jlookup]
  | cons kv rest ih =>
    obtain ⟨k1, v1⟩ := kv
    by_cases h : k1 = k
    · simp [jset, jlookup, h]
    · simp [jset, jlookup, h, ih]

theorem jlookup_jset_other (l : List (String × Json)) (k k2 : String) (v : Json)
    (h : k ≠ k2) : jlookup (jset l k2 v) k = jlookup l k := by
  induction l with
  | nil => simp [jset, jlookup, Ne.symm h]
  | cons kv rest ih =>
    obtain ⟨k1, v1⟩ := kv
    by_cases h1 : k1 = k2
    · subst h1
      simp only [jset, if_pos rfl]
      simp [jlookup, Ne.symm h]
    · by_cases h2 : k1 = k
      · simp [jset, jlookup, h1, h2, h]
      · simp [jset, jlookup, h1, h2, ih]

theorem jset_self (l : List (String × Json)) (k : String) (v : Json)
    (h : jlookup l k = some v) : jset l k v = l := by
  induction l with
  | nil => simp [jlookup] at h
  | cons kv rest ih =>
    obtain ⟨k1, v1⟩ := kv
    by_cases h1 : k1 = k
    · subst h1
      rw [jlookup, if_pos rfl] at h
      injection h with hv
      rw [jset, if_pos rfl, hv]
    · rw [jlookup, if_neg h1] at h
      rw [jset, if_neg h1, ih h]

theorem jlookup_jdelete_self (l : List (String × Json)) (k : String) :
    jlookup (jdelete l k) k = none := by
  induction l with
  | nil => rfl
  | cons kv rest ih =>
    obtain ⟨k1, v1⟩ := kv
    by_cases h1 : k1 = k
    · simp [jdelete, h1, ih]
    · simp [jdelete, jlookup, h1, ih]

theorem jlookup_jdelete_other (l : List (String × Json)) (k k2 : String) (h : k ≠ k2) :
    jlookup (jdelete l k2) k = jlookup l k := by
  induction l with
  | nil => rfl
  | cons kv rest ih =>
    obtain ⟨k1, v1⟩ := kv
    by_cases h1 : k1 = k2
    · subst h1
      simp [jdelete, jlookup, Ne.symm h, ih]
    · by_cases h2 : k1 = k
      · simp [jdelete, jlookup, h1, h2, h]
      · simp [jdelete, jlookup, h1, h2, ih]

theorem jdelete_mem (l : List (String × Json)) (k : String) (kv : String × Json)
    (h : kv ∈ jdelete l k) : kv ∈ l := by
  induction l with
  | nil => simp [jdelete] at h
  | cons kv1 rest ih =>
    obtain ⟨k1, v1⟩ := kv1
    by_cases h1 : k1 = k
    · simp only [jdelete, if_pos h1] at h
      exact List.mem_cons_of_mem _ (ih h)
    · simp only [jdelete, if_neg h1, List.mem_cons] at h
      rcases h with h | h
      · simp [h]
      · exact List.mem_cons_of_mem _ (ih h)

theorem jlookup_append (l1 l2 : List (String × Json)) (k : String) :
    jlookup (l1 ++ l2) k =
      (match jlookup l1 k with
      | some v => some v
      | none => jlookup l2 k) := by
  induction l1 with
  | nil => simp [jlookup]
  | cons kv rest ih =>
    obtain ⟨k1, v1⟩ := kv
    by_cases h1 : k1 = k
    · simp [jlookup, h1]
    · simp [jlookup, h1, ih]

theorem jlookup_defaultsFill (l dict : List (String × Json)) (k : String) :
    jlookup (defaultsFill l dict) k =
      (match jlookup l k with
      | some v => some v
      | none => jlookup dict k) := by
  induction dict generalizing l with
  | nil =>
    show jlookup l k = _
    cases jlookup l k <;> rfl
  | cons kv rest ih =>
    obtain ⟨k1, d1⟩ := kv
    show jlookup (defaultsFill
      (match jlookup l k1 with
      | some _ => l
      | none => l ++ [(k1, d1)]) rest) k = _
    cases hl1 : jlookup l k1 with
    | some w =>
      rw [ih l]
      by_cases hk : k1 = k
      · subst hk
        rw [hl1]
        try simp [jlookup]
      · cases hl : jlookup l k
        all_goals first
        | rfl
        | simp [jlookup, hk]
    | none =>
      rw [ih (l ++ [(k1, d1)])]
      rw [jlookup_append]
      by_cases hk : k1 = k
      · subst hk
        rw [hl1]
        try simp [jlookup]
      · cases hl : jlookup l k
        all_goals first
        | rfl
        | simp [jlookup, hk]

/-! ## Normalization structure lemmas -/

theorem jlookup_mem (l : List (String × Json)) (k : String) (v : Json)
    (h : jlookup l k = some v) : (k, v) ∈ l := by
  induction l with
  | nil => simp [jlookup] at h
  | cons kv rest ih =>
    obtain ⟨k1, v1⟩ := kv
    by_cases h1 : k1 = k
    · subst h1
      rw [jlookup, if_pos rfl] at h
      injection h with hv
      simp [hv]
    · rw [jlookup, if_neg h1] at h
      exact List.mem_cons_of_mem _ (ih h)

theorem defaultsFill_nop (l dict : List (String × Json))
    (h : ∀ kv ∈ dict, (jlookup l kv.1).isSome) : defaultsFill l dict = l := by
  induction dict with
  | nil => rfl
  | cons kv rest ih =>
    obtain ⟨k1, d1⟩ := kv
    have h1 := h (k1, d1) (by simp)
    show defaultsFill (match jlookup l k1 with
      | some _ => l
      | none => l ++ [(k1, d1)]) rest = l
    cases hl : jlookup l k1 with
    | some w => exact ih (fun kv hkv => h kv (by simp [hkv]))
    | none => rw [hl] at h1; simp at h1

theorem jlookup_fill_isSome (l dict : List (String × Json)) (k : String)
    (h : (jlookup dict k).isSome) : (jlookup (defaultsFill l dict) k).isSome := by
  rw [jlookup_defaultsFill]
  cases hl : jlookup l k with
  | some v => simp
  | none => simpa using h

theorem jlookup_fill_keeps (l dict : List (String × Json)) (k : String) (v : Json)
    (h : jlookup l k = some v) : jlookup (defaultsFill l dict) k = some v := by
  rw [jlookup_defaultsFill, h]

/-- `headers`, when an object, holds no null-valued entry; when an
array, no null element. -/
def HdrsNoNulls (kvs : List (String × Json)) : Prop :=
  (∀ hs, jlookup kvs "headers" = some (.obj hs) → hs.filter (fun kv => jIsNull kv.2) = []) ∧
  (∀ l, jlookup kvs "headers" = some (.arr l) → l.filter (fun x => jIsNull x) = [])

/-- The shape of every successful `_normalizeTamperSpec` output: the four
structural fields are present, `response` is not null and — when an
object — itself carries `headers`/`remove` with no null-valued header
entry, and the top-level header map has no null-valued entry either. -/
def NormShape (kvs : List (String × Json)) : Prop :=
  (jlookup kvs "headers").isSome ∧ (jlookup kvs "remove").isSome ∧
  (jlookup kvs "opts").isSome ∧
  (∃ rv, jlookup kvs "response" = some rv ∧ rv ≠ Json.null ∧
    (∀ rkvs, rv = .obj rkvs →
      (jlookup rkvs "headers").isSome ∧ (jlookup rkvs "remove").isSome ∧ HdrsNoNulls rkvs)) ∧
  HdrsNoNulls kvs

theorem dno_nop (kvs : List (String × Json)) (h : HdrsNoNulls kvs) :
    doNormalizeObj kvs = .ok kvs := by
  unfold doNormalizeObj
  cases hh : jlookup kvs "headers" with
  | none => rfl
  | some hv =>
    cases hv with
    | obj hs =>
      simp only []
      rw [h.1 hs hh]
      rfl
    | arr l2 =>
      simp only []
      rw [h.2 l2 hh]
      rfl
    | null => rfl
    | bool b => rfl
    | num n => rfl
    | str s => rfl

theorem filter_no_nulls (hs : List (String × Json)) :
    (hs.filter (fun kv => !(jIsNull kv.2))).filter (fun kv => jIsNull kv.2) = [] := by
  induction hs with
  | nil => rfl
  | cons kv rest ih =>
    by_cases h : jIsNull kv.2 = true
    · simp [List.filter_cons, h, ih]
    · simp only [Bool.not_eq_true] at h
      simp [List.filter_cons, h, ih]

theorem filter_no_nulls_elems (l : List Json) :
    (l.filter (fun x => !(jIsNull x))).filter (fun x => jIsNull x) = [] := by
  induction l with
  | nil => rfl
  | cons x rest ih =>
    by_cases h : jIsNull x = true
    · simp [List.filter_cons, h, ih]
    · simp only [Bool.not_eq_true] at h
      simp [List.filter_cons, h, ih]

/-- Case analysis of `doNormalizeObj`: a no-op (non-enumerable or
null-free `headers`), or the null-migration rewrite of an object
`headers`, or the null-element deletion of an array `headers` with its
index strings pushed onto `remove`. -/
theorem dno_spec (kvs kvs2 : List (String × Json)) (h : doNormalizeObj kvs = .ok kvs2) :
    (kvs2 = kvs ∧ HdrsNoNulls kvs) ∨
    (∃ hs rl, jlookup kvs "headers" = some (.obj hs) ∧ jlookup kvs "remove" = some (.arr rl) ∧
      ¬(hs.filter (fun kv => jIsNull kv.2) = []) ∧
      kvs2 = jset (jset kvs "headers" (.obj (hs.filter (fun kv => !(jIsNull kv.2))))) "remove"
        (.arr (rl ++ (hs.filter (fun kv => jIsNull kv.2)).map (fun kv => Json.str kv.1)))) ∨
    (∃ l rl, jlookup kvs "headers" = some (.arr l) ∧ jlookup kvs "remove" = some (.arr rl) ∧
      ¬(l.filter (fun x => jIsNull x) = []) ∧
      kvs2 = jset (jset kvs "headers" (.arr (l.filter (fun x => !(jIsNull x))))) "remove"
        (.arr (rl ++ (arrNullNames 0 l).map Json.str))) := by
  unfold doNormalizeObj at h
  cases hh : jlookup kvs "headers" with
  | none =>
    rw [hh] at h
    injection h with h2
    exact Or.inl ⟨h2.symm, (fun hs hhs => by rw [hh] at hhs; cases hhs),
      (fun l hhs => by rw [hh] at hhs; cases hhs)⟩
  | some hv =>
    rw [hh] at h
    cases hv with
    | obj hs =>
      simp only [] at h
      by_cases hemp : (hs.filter (fun kv => jIsNull kv.2)).isEmpty = true
      · rw [if_pos hemp] at h
        injection h with h2
        refine Or.inl ⟨h2.symm, fun hs2 hhs2 => ?_, fun l hhs2 => ?_⟩
        · rw [hh] at hhs2
          injection hhs2 with h3
          injection h3 with h4
          rw [← h4]
          simpa [List.isEmpty_iff] using hemp
        · rw [hh] at hhs2
          cases hhs2
      · rw [if_neg hemp] at h
        cases hr : jlookup kvs "remove" with
        | none => rw [hr] at h; cases h
        | some rv =>
          rw [hr] at h
          cases rv with
          | arr rl =>
            injection h with h2
            refine Or.inr (Or.inl ⟨hs, rl, rfl, rfl, ?_, h2.symm⟩)
            simpa [List.isEmpty_iff] using hemp
          | null => cases h
          | bool b => cases h
          | num n => cases h
          | str s => cases h
          | obj l2 => cases h
    | arr l =>
      simp only [] at h
      by_cases hemp : (l.filter (fun x => jIsNull x)).isEmpty = true
      · rw [if_pos hemp] at h
        injection h with h2
        refine Or.inl ⟨h2.symm, fun hs2 hhs2 => ?_, fun l2 hhs2 => ?_⟩
        · rw [hh] at hhs2
          cases hhs2
        · rw [hh] at hhs2
          injection hhs2 with h3
          injection h3 with h4
          rw [← h4]
          simpa [List.isEmpty_iff] using hemp
      · rw [if_neg hemp] at h
        cases hr : jlookup kvs "remove" with
        | none => rw [hr] at h; cases h
        | some rv =>
          rw [hr] at h
          cases rv with
          | arr rl =>
            injection h with h2
            refine Or.inr (Or.inr ⟨l, rl, rfl, rfl, ?_, h2.symm⟩)
            simpa [List.isEmpty_iff] using hemp
          | null => cases h
          | bool b => cases h
          | num n => cases h
          | str s => cases h
          | obj l2 => cases h
    | null => injection h with h2; exact Or.inl ⟨h2.symm,
        (fun hs hhs => by rw [hh] at hhs; cases hhs),
        (fun l hhs => by rw [hh] at hhs; cases hhs)⟩
    | bool b => injection h with h2; exact Or.inl ⟨h2.symm,
        (fun hs hhs => by rw [hh] at hhs; cases hhs),
        (fun l hhs => by rw [hh] at hhs; cases hhs)⟩
    | num n => injection h with h2; exact Or.inl ⟨h2.symm,
        (fun hs hhs => by rw [hh] at hhs; cases hhs),
        (fun l hhs => by rw [hh] at hhs; cases hhs)⟩
    | str s => injection h with h2; exact Or.inl ⟨h2.symm,
        (fun hs hhs => by rw [hh] at hhs; cases hhs),
        (fun l hhs => by rw [hh] at hhs; cases hhs)⟩

theorem fixed_of_shape (kvs : List (String × Json)) (h : NormShape kvs) :
    normalizeTamperSpec (.obj kvs) = .ok (.obj kvs) := by
  obtain ⟨hh, hr, ho, ⟨rv, hresp, hrnn, hrobj⟩, hnn⟩ := h
  have hfill : defaultsFill kvs
      [("headers", .obj []), ("remove", .arr []), ("response", .obj []), ("opts", .obj [])] =
      kvs := by
    apply defaultsFill_nop
    intro kv hkv
    simp only [List.mem_cons, List.not_mem_nil, or_false] at hkv
    rcases hkv with h1 | h1 | h1 | h1 <;> rw [h1]
    · exact hh
    · exact hr
    · rw [hresp]; rfl
    · exact ho
  unfold normalizeTamperSpec
  simp only [hfill]
  rw [hresp]
  cases rv with
  | null => exact absurd rfl hrnn
  | obj rkvs =>
    obtain ⟨hih, hir, hinn⟩ := hrobj rkvs rfl
    have hifill : defaultsFill rkvs [("headers", .obj []), ("remove", .arr [])] = rkvs := by
      apply defaultsFill_nop
      intro kv hkv
      simp only [List.mem_cons, List.not_mem_nil, or_false] at hkv
      rcases hkv with h1 | h1 <;> rw [h1]
      · exact hih
      · exact hir
    simp only [hifill]
    rw [jset_self kvs "response" (.obj rkvs) hresp]
    rw [dno_nop kvs hnn]
    simp only []
    rw [hresp]
    simp only []
    rw [dno_nop rkvs hinn]
    simp only []
    rw [jset_self kvs "response" (.obj rkvs) hresp]
  | bool b =>
    simp only []
    rw [dno_nop kvs hnn]
    simp only []
    rw [hresp]
  | num n =>
    simp only []
    rw [dno_nop kvs hnn]
    simp only []
    rw [hresp]
  | str s =>
    simp only []
    rw [dno_nop kvs hnn]
    simp only []
    rw [hresp]
  | arr l2 =>
    simp only []
    rw [dno_nop kvs hnn]
    simp only []
    rw [hresp]

theorem dno_lookup (kvs kvs2 : List (String × Json)) (h : doNormalizeObj kvs = .ok kvs2)
    (k : String) (hk1 : k ≠ "headers") (hk2 : k ≠ "remove") :
    jlookup kvs2 k = jlookup kvs k := by
  rcases dno_spec kvs kvs2 h with ⟨he, _⟩ | ⟨hs, rl, _, _, _, he⟩ | ⟨l, rl, _, _, _, he⟩
  · rw [he]
  · rw [he, jlookup_jset_other _ _ _ _ hk2, jlookup_jset_other _ _ _ _ hk1]
  · rw [he, jlookup_jset_other _ _ _ _ hk2, jlookup_jset_other _ _ _ _ hk1]

theorem dno_shape (kvs kvs2 : List (String × Json)) (h : doNormalizeObj kvs = .ok kvs2)
    (hh : (jlookup kvs "headers").isSome) (hr : (jlookup kvs "remove").isSome) :
    (jlookup kvs2 "headers").isSome ∧ (jlookup kvs2 "remove").isSome ∧ HdrsNoNulls kvs2 := by
  rcases dno_spec kvs kvs2 h with ⟨he, hn⟩ | ⟨hs, rl, _, _, _, he⟩ | ⟨l, rl, _, _, _, he⟩
  · rw [he]; exact ⟨hh, hr, hn⟩
  · subst he
    refine ⟨?_, ?_, ?_, ?_⟩
    · rw [jlookup_jset_other _ _ _ _ (by decide), jlookup_jset_self]; rfl
    · rw [jlookup_jset_self]; rfl
    · intro hs2 hhs2
      rw [jlookup_jset_other _ _ _ _ (by decide), jlookup_jset_self] at hhs2
      injection hhs2 with h3
      injection h3 with h4
      rw [← h4]
      exact filter_no_nulls hs
    · intro l2 hhs2
      rw [jlookup_jset_other _ _ _ _ (by decide), jlookup_jset_self] at hhs2
      cases hhs2
  · subst he
    refine ⟨?_, ?_, ?_, ?_⟩
    · rw [jlookup_jset_other _ _ _ _ (by decide), jlookup_jset_self]; rfl
    · rw [jlookup_jset_self]; rfl
    · intro hs2 hhs2
      rw [jlookup_jset_other _ _ _ _ (by decide), jlookup_jset_self] at hhs2
      cases hhs2
    · intro l2 hhs2
      rw [jlookup_jset_other _ _ _ _ (by decide), jlookup_jset_self] at hhs2
      injection hhs2 with h3
      injection h3 with h4
      rw [← h4]
      exact filter_no_nulls_elems l

/-- Every successful `_normalizeTamperSpec` output for an object spec is
an object in `NormShape`. -/
theorem shape_of_ok (kvs : List (String × Json)) (t2 : Json)
    (h : normalizeTamperSpec (.obj kvs) = .ok t2) :
    ∃ kvs2, t2 = .obj kvs2 ∧ NormShape kvs2 := by
  unfold normalizeTamperSpec at h
  simp only [] at h
  set kvs1 := defaultsFill kvs
    [("headers", Json.obj []), ("remove", Json.arr []), ("response", Json.obj []),
     ("opts", Json.obj [])] with hkvs1
  have hh1 : (jlookup kvs1 "headers").isSome := by
    rw [hkvs1]; exact jlookup_fill_isSome _ _ _ (by rfl)
  have hr1 : (jlookup kvs1 "remove").isSome := by
    rw [hkvs1]; exact jlookup_fill_isSome _ _ _ (by rfl)
  have ho1 : (jlookup kvs1 "opts").isSome := by
    rw [hkvs1]; exact jlookup_fill_isSome _ _ _ (by rfl)
  cases hresp : jlookup kvs1 "response" with
  | none =>
    rw [hresp] at h
    simp only [] at h
    exact Except.noConfusion h
  | some rv =>
    rw [hresp] at h
    cases rv with
    | null =>
      simp only [] at h
      exact Except.noConfusion h
    | bool b =>
      simp only [] at h
      cases hd1 : doNormalizeObj kvs1 with
      | error e => rw [hd1] at h; simp only [] at h; exact Except.noConfusion h
      | ok kvs3 =>
        rw [hd1] at h
        simp only [] at h
        have hresp3 : jlookup kvs3 "response" = some (.bool b) := by
          rw [dno_lookup kvs1 kvs3 hd1 "response" (by decide) (by decide)]
          exact hresp
        rw [hresp3] at h
        simp only [] at h
        injection h with h2
        obtain ⟨h3h, h3r, h3n⟩ := dno_shape kvs1 kvs3 hd1 hh1 hr1
        refine ⟨kvs3, h2.symm, h3h, h3r, ?_, ⟨.bool b, hresp3,
          fun hc => Json.noConfusion hc, fun rkvs hrk => Json.noConfusion hrk⟩, h3n⟩
        rw [dno_lookup kvs1 kvs3 hd1 "opts" (by decide) (by decide)]
        exact ho1
    | num n =>
      simp only [] at h
      cases hd1 : doNormalizeObj kvs1 with
      | error e => rw [hd1] at h; simp only [] at h; exact Except.noConfusion h
      | ok kvs3 =>
        rw [hd1] at h
        simp only [] at h
        have hresp3 : jlookup kvs3 "response" = some (.num n) := by
          rw [dno_lookup kvs1 kvs3 hd1 "response" (by decide) (by decide)]
          exact hresp
        rw [hresp3] at h
        simp only [] at h
        injection h with h2
        obtain ⟨h3h, h3r, h3n⟩ := dno_shape kvs1 kvs3 hd1 hh1 hr1
        refine ⟨kvs3, h2.symm, h3h, h3r, ?_, ⟨.num n, hresp3,
          fun hc => Json.noConfusion hc, fun rkvs hrk => Json.noConfusion hrk⟩, h3n⟩
        rw [dno_lookup kvs1 kvs3 hd1 "opts" (by decide) (by decide)]
        exact ho1
    | str s =>
      simp only [] at h
      cases hd1 : doNormalizeObj kvs1 with
      | error e => rw [hd1] at h; simp only [] at h; exact Except.noConfusion h
      | ok kvs3 =>
        rw [hd1] at h
        simp only [] at h
        have hresp3 : jlookup kvs3 "response" = some (.str s) := by
          rw [dno_lookup kvs1 kvs3 hd1 "response" (by decide) (by decide)]
          exact hresp
        rw [hresp3] at h
        simp only [] at h
        injection h with h2
        obtain ⟨h3h, h3r, h3n⟩ := dno_shape kvs1 kvs3 hd1 hh1 hr1
        refine ⟨kvs3, h2.symm, h3h, h3r, ?_, ⟨.str s, hresp3,
          fun hc => Json.noConfusion hc, fun rkvs hrk => Json.noConfusion hrk⟩, h3n⟩
        rw [dno_lookup kvs1 kvs3 hd1 "opts" (by decide) (by decide)]
        exact ho1
    | arr l2 =>
      simp only [] at h
      cases hd1 : doNormalizeObj kvs1 with
      | error e => rw [hd1] at h; simp only [] at h; exact Except.noConfusion h
      | ok kvs3 =>
        rw [hd1] at h
        simp only [] at h
        have hresp3 : jlookup kvs3 "response" = some (.arr l2) := by
          rw [dno_lookup kvs1 kvs3 hd1 "response" (by decide) (by decide)]
          exact hresp
        rw [hresp3] at h
        simp only [] at h
        injection h with h2
        obtain ⟨h3h, h3r, h3n⟩ := dno_shape kvs1 kvs3 hd1 hh1 hr1
        refine ⟨kvs3, h2.symm, h3h, h3r, ?_, ⟨.arr l2, hresp3,
          fun hc => Json.noConfusion hc, fun rkvs hrk => Json.noConfusion hrk⟩, h3n⟩
        rw [dno_lookup kvs1 kvs3 hd1 "opts" (by decide) (by decide)]
        exact ho1
    | obj rkvs =>
      simp only [] at h
      set rfill := defaultsFill rkvs [("headers", Json.obj []), ("remove", Json.arr [])]
        with hrfill
      have ihh : (jlookup rfill "headers").isSome := by
        rw [hrfill]; exact jlookup_fill_isSome _ _ _ (by rfl)
      have ihr : (jlookup rfill "remove").isSome := by
        rw [hrfill]; exact jlookup_fill_isSome _ _ _ (by rfl)
      have hh2 : (jlookup (jset kvs1 "response" (.obj rfill)) "headers").isSome := by
        rw [jlookup_jset_other _ _ _ _ (by decide)]; exact hh1
      have hr2 : (jlookup (jset kvs1 "response" (.obj rfill)) "remove").isSome := by
        rw [jlookup_jset_other _ _ _ _ (by decide)]; exact hr1
      cases hd1 : doNormalizeObj (jset kvs1 "response" (.obj rfill)) with
      | error e => rw [hd1] at h; simp only [] at h; exact Except.noConfusion h
      | ok kvs3 =>
        rw [hd1] at h
        simp only [] at h
        have hresp3 : jlookup kvs3 "response" = some (.obj rfill) := by
          rw [dno_lookup _ _ hd1 "response" (by decide) (by decide)]
          exact jlookup_jset_self _ _ _
        rw [hresp3] at h
        simp only [] at h
        cases hd2 : doNormalizeObj rfill with
        | error e => rw [hd2] at h; simp only [] at h; exact Except.noConfusion h
        | ok rk2 =>
          rw [hd2] at h
          simp only [] at h
          injection h with h2
          obtain ⟨h3h, h3r, h3n⟩ := dno_shape _ _ hd1 hh2 hr2
          obtain ⟨h4h, h4r, h4n⟩ := dno_shape rfill rk2 hd2 ihh ihr
          refine ⟨jset kvs3 "response" (.obj rk2), h2.symm, ?_, ?_, ?_, ?_, ?_⟩
          · rw [jlookup_jset_other _ _ _ _ (by decide)]; exact h3h
          · rw [jlookup_jset_other _ _ _ _ (by decide)]; exact h3r
          · rw [jlookup_jset_other _ _ _ _ (by decide)]
            rw [dno_lookup _ _ hd1 "opts" (by decide) (by decide)]
            rw [jlookup_jset_other _ _ _ _ (by decide)]
            exact ho1
          · refine ⟨.obj rk2, jlookup_jset_self _ _ _, fun hc => Json.noConfusion hc, ?_⟩
            intro rkvs2 hrk
            injection hrk with h5
            rw [← h5]
            exact ⟨h4h, h4r, h4n⟩
          · refine ⟨?_, ?_⟩
            · intro hs hhs
              rw [jlookup_jset_other _ _ _ _ (by decide)] at hhs
              exact h3n.1 hs hhs
            · intro l3 hhs
              rw [jlookup_jset_other _ _ _ _ (by decide)] at hhs
              exact h3n.2 l3 hhs

/-- Every successful `_normalizeTamperSpec` output is an object in
`NormShape` or — for an array spec, whose attached expandos are
JSON-invisible — the input array itself. -/
theorem shape_of_ok_any (t t2 : Json) (h : normalizeTamperSpec t = .ok t2) :
    (∃ kvs2, t2 = .obj kvs2 ∧ NormShape kvs2) ∨ (∃ l, t2 = .arr l ∧ t = .arr l) := by
  cases t with
  | null => exact absurd h (by simp [normalizeTamperSpec])
  | bool b => exact absurd h (by simp [normalizeTamperSpec])
  | num n => exact absurd h (by simp [normalizeTamperSpec])
  | str s => exact absurd h (by simp [normalizeTamperSpec])
  | arr l =>
    have h2 : Except.ok (Json.arr l) = Except.ok t2 := h
    injection h2 with h3
    exact Or.inr ⟨l, h3.symm, rfl⟩
  | obj kvs => exact Or.inl (shape_of_ok kvs t2 h)

/-- Normalization outputs are fixed points of normalization. -/
theorem normalize_fixed (t t2 : Json) (h : normalizeTamperSpec t = .ok t2) :
    normalizeTamperSpec t2 = .ok t2 := by
  rcases shape_of_ok_any t t2 h with ⟨kvs2, rfl, hsh⟩ | ⟨l, rfl, _⟩
  · exact fixed_of_shape kvs2 hsh
  · rfl

/-! ## Transport and tag lemmas -/

/-- Decoding is the exact inverse of the page script's encoding step. -/
theorem decode_encode (s : Json) (hwf : jwf s = true) :
    decodeReqModifyOpts (b64EncodeUnicode (stringify s)) = .ok s := by
  unfold decodeReqModifyOpts
  rw [b64Unicode_roundtrip]
  exact parse_print s hwf

/-- With tab and frame fixed, the composite key determines the url. -/
theorem makeKey_inj_url (t f : Int) (u1 u2 : String)
    (h : makeKey t f u1 = makeKey t f u2) : u1 = u2 := by
  have h2 : (makeKey t f u1).data = (makeKey t f u2).data := congrArg String.data h
  simp only [makeKey, String.data_append, List.append_assoc] at h2
  have h3 := List.append_cancel_left (List.append_cancel_left
    (List.append_cancel_left (List.append_cancel_left h2)))
  have h4 := congrArg String.mk h3
  rwa [string_mk_data, string_mk_data] at h4

/-- A char list containing no dollar sign has no tag match. -/
theorem splitTag_no_dollar : ∀ l : List Char, (∀ c ∈ l, c ≠ '$') → splitTag l = none := by
  intro l
  induction l with
  | nil => intro _; rfl
  | cons c rest ih =>
    intro h
    rw [splitTag, ih (fun x hx => h x (List.mem_cons_of_mem c hx))]
    have hc : c ≠ '$' := h c (List.mem_cons_self c rest)
    have hpre : tagChars.isPrefixOf (c :: rest) = false := by
      cases hp : tagChars.isPrefixOf (c :: rest) with
      | false => rfl
      | true =>
        have := List.isPrefixOf_iff_prefix.mp hp
        obtain ⟨tail2, htl⟩ := this
        have : '$' = c := by
          have := congrArg (fun l => l.head?) htl
          simpa [tagChars] using this
        exact absurd this.symm hc
    rw [hpre]
    rfl

/-- Every strict suffix of `tagChars ++ token` is dollar-free when the
token is. -/
theorem splitTag_tag_prefix (token : List Char)
    (hslash : ∀ c ∈ token, c ≠ '/') (hdollar : ∀ c ∈ token, c ≠ '$') :
    splitTag (tagChars ++ token) = some ([], token) := by
  have htail : splitTag ("TamperApi:".data ++ token) = none := by
    apply splitTag_no_dollar
    intro c hc
    rcases List.mem_append.mp hc with h1 | h1
    · exact (by decide : ∀ x ∈ "TamperApi:".data, x ≠ '$') c h1
    · exact hdollar c h1
  show splitTag ('$' :: ("TamperApi:".data ++ token)) = some ([], token)
  rw [splitTag, htail]
  have hpre : tagChars.isPrefixOf ('$' :: ("TamperApi:".data ++ token)) = true := by
    apply List.isPrefixOf_iff_prefix.mpr
    exact ⟨token, rfl⟩
  rw [hpre]
  have hdrop : ('$' :: ("TamperApi:".data ++ token)).drop 11 = token := by
    show ("$TamperApi:".data ++ token).drop 11 = token
    have : ("$TamperApi:".data ++ token).drop ("$TamperApi:".data.length) = token :=
      List.drop_left _ _
    exact this
  rw [hdrop]
  have hall : token.all (fun ch => ch ≠ '/') = true := by
    rw [List.all_eq_true]
    intro x hx
    simpa using hslash x hx
  rw [if_pos hall]
  rfl

/-- The tag regex splits a tagged url into the original url and the token:
the greedy `.*` stops at the single dollar sign. -/
theorem splitTag_append (u token : List Char)
    (hslash : ∀ c ∈ token, c ≠ '/') (hdollar : ∀ c ∈ token, c ≠ '$') :
    splitTag (u ++ (tagChars ++ token)) = some (u, token) := by
  induction u with
  | nil => simpa using splitTag_tag_prefix token hslash hdollar
  | cons c rest ih =>
    show splitTag (c :: (rest ++ (tagChars ++ token))) = _
    rw [splitTag, ih]

/-! ## Null-header migration lemmas -/

theorem contains_map_filter (l : List (String × Json)) (p : (String × Json) → Bool)
    (k : String) (h : ((l.map Prod.fst).contains k) = false) :
    (((l.filter p).map Prod.fst).contains k) = false := by
  induction l with
  | nil => rfl
  | cons kv rest ih =>
    rw [List.map_cons, List.contains_cons, Bool.or_eq_false_iff] at h
    rw [List.filter_cons]
    by_cases hp : p kv = true
    · rw [if_pos hp, List.map_cons, List.contains_cons, Bool.or_eq_false_iff]
      exact ⟨h.1, ih h.2⟩
    · rw [if_neg hp]
      exact ih h.2

/-- With duplicate-free keys, a name bound to `null` vanishes from the
filtered header object. -/
theorem jlookup_filter_nodup (hs : List (String × Json)) (X : String)
    (hnod : jnodupKeys (hs.map Prod.fst) = true) (h : jlookup hs X = some Json.null) :
    jlookup (hs.filter (fun kv => !(jIsNull kv.2))) X = none := by
  induction hs with
  | nil => simp [jlookup] at h
  | cons kv rest ih =>
    obtain ⟨k1, v1⟩ := kv
    rw [List.map_cons, jnodupKeys, Bool.and_eq_true] at hnod
    have hnod1 : ((rest.map Prod.fst).contains k1) = false := by
      have := hnod.1
      cases hc : (rest.map Prod.fst).contains k1
      · rfl
      · rw [hc] at this; simp at this
    by_cases h1 : k1 = X
    · subst h1
      rw [jlookup, if_pos rfl] at h
      injection h with hv
      subst hv
      rw [List.filter_cons]
      rw [if_neg (by simp [jIsNull])]
      exact jlookup_eq_none _ _ (contains_map_filter rest _ k1 hnod1)
    · rw [jlookup, if_neg h1] at h
      rw [List.filter_cons]
      by_cases h2 : (!(jIsNull v1)) = true
      · rw [if_pos h2, jlookup, if_neg h1]
        exact ih hnod.2 h
      · rw [if_neg h2]
        exact ih hnod.2 h

/-- A name bound to `null` lands in the migrated removal names. -/
theorem null_name_in_removed (hs : List (String × Json)) (X : String)
    (h : jlookup hs X = some Json.null) :
    Json.str X ∈ (hs.filter (fun kv => jIsNull kv.2)).map (fun kv => Json.str kv.1) := by
  have hm : (X, Json.null) ∈ hs := jlookup_mem hs X Json.null h
  have hf : (X, Json.null) ∈ hs.filter (fun kv => jIsNull kv.2) :=
    List.mem_filter.mpr ⟨hm, rfl⟩
  exact List.mem_map.mpr ⟨(X, Json.null), hf, rfl⟩

/-- What `_doNormalize` guarantees about the header object: the output
headers hold no null entry, and every null-bound name is gone from them
(given duplicate-free keys) and recorded in the `remove` array. -/
theorem dno_headers (kvs kvs2 hs : List (String × Json))
    (h : doNormalizeObj kvs = .ok kvs2)
    (hh : jlookup kvs "headers" = some (.obj hs)) :
    ∃ hs2, jlookup kvs2 "headers" = some (.obj hs2) ∧
      hs2.filter (fun kv => jIsNull kv.2) = [] ∧
      ∀ X, jlookup hs X = some Json.null →
        (jnodupKeys (hs.map Prod.fst) = true → jlookup hs2 X = none) ∧
        ∃ rl2, jlookup kvs2 "remove" = some (.arr rl2) ∧ Json.str X ∈ rl2 := by
  rcases dno_spec kvs kvs2 h with ⟨he, hn⟩ | ⟨hs0, rl, hh0, hr0, hne, he⟩ |
    ⟨l0, rl, hh0, hr0, hne, he⟩
  · subst he
    refine ⟨hs, hh, hn.1 hs hh, ?_⟩
    intro X hX
    exfalso
    have hm : (X, Json.null) ∈ hs := jlookup_mem hs X Json.null hX
    have hmf : (X, Json.null) ∈ hs.filter (fun kv => jIsNull kv.2) :=
      List.mem_filter.mpr ⟨hm, rfl⟩
    rw [hn.1 hs hh] at hmf
    exact absurd hmf (List.not_mem_nil _)
  · rw [hh] at hh0
    injection hh0 with h3
    injection h3 with h4
    subst h4
    subst he
    refine ⟨hs.filter (fun kv => !(jIsNull kv.2)), ?_, filter_no_nulls hs, ?_⟩
    · rw [jlookup_jset_other _ _ _ _ (by decide), jlookup_jset_self]
    · intro X hX
      refine ⟨fun hnod => jlookup_filter_nodup hs X hnod hX, ?_⟩
      exact ⟨rl ++ (hs.filter (fun kv => jIsNull kv.2)).map (fun kv => Json.str kv.1),
        jlookup_jset_self _ _ _,
        List.mem_append_right _ (null_name_in_removed hs X hX)⟩
  · rw [hh] at hh0
    injection hh0 with h3
    exact Json.noConfusion h3

/-- Every success of `_normalizeTamperSpec` runs `_doNormalize` over a
list whose `headers` binding is the filled input's, and the final object
keeps that run's `headers` and `remove` bindings (the trailing `response`
re-write touches neither). -/
theorem normalize_top_dno (kvs : List (String × Json)) (t2 : Json)
    (h : normalizeTamperSpec (.obj kvs) = .ok t2) :
    ∃ kvsM kvs3 kvsF, t2 = .obj kvsF ∧ doNormalizeObj kvsM = .ok kvs3 ∧
      jlookup kvsM "headers" =
        jlookup (defaultsFill kvs [("headers", Json.obj []), ("remove", Json.arr []),
          ("response", Json.obj []), ("opts", Json.obj [])]) "headers" ∧
      jlookup kvsF "headers" = jlookup kvs3 "headers" ∧
      jlookup kvsF "remove" = jlookup kvs3 "remove" := by
  unfold normalizeTamperSpec at h
  simp only [] at h
  set kvs1 := defaultsFill kvs
    [("headers", Json.obj []), ("remove", Json.arr []), ("response", Json.obj []),
     ("opts", Json.obj [])] with hkvs1
  cases hresp : jlookup kvs1 "response" with
  | none =>
    rw [hresp] at h
    simp only [] at h
    exact Except.noConfusion h
  | some rv =>
    rw [hresp] at h
    cases rv with
    | null =>
      simp only [] at h
      exact Except.noConfusion h
    | bool b =>
      simp only [] at h
      cases hd1 : doNormalizeObj kvs1 with
      | error e => rw [hd1] at h; simp only [] at h; exact Except.noConfusion h
      | ok kvs3 =>
        rw [hd1] at h
        simp only [] at h
        have hresp3 : jlookup kvs3 "response" = some (.bool b) := by
          rw [dno_lookup kvs1 kvs3 hd1 "response" (by decide) (by decide)]
          exact hresp
        rw [hresp3] at h
        simp only [] at h
        injection h with h2
        exact ⟨kvs1, kvs3, kvs3, h2.symm, hd1, rfl, rfl, rfl⟩
    | num n =>
      simp only [] at h
      cases hd1 : doNormalizeObj kvs1 with
      | error e => rw [hd1] at h; simp only [] at h; exact Except.noConfusion h
      | ok kvs3 =>
        rw [hd1] at h
        simp only [] at h
        have hresp3 : jlookup kvs3 "response" = some (.num n) := by
          rw [dno_lookup kvs1 kvs3 hd1 "response" (by decide) (by decide)]
          exact hresp
        rw [hresp3] at h
        simp only [] at h
        injection h with h2
        exact ⟨kvs1, kvs3, kvs3, h2.symm, hd1, rfl, rfl, rfl⟩
    | str s =>
      simp only [] at h
      cases hd1 : doNormalizeObj kvs1 with
      | error e => rw [hd1] at h; simp only [] at h; exact Except.noConfusion h
      | ok kvs3 =>
        rw [hd1] at h
        simp only [] at h
        have hresp3 : jlookup kvs3 "response" = some (.str s) := by
          rw [dno_lookup kvs1 kvs3 hd1 "response" (by decide) (by decide)]
          exact hresp
        rw [hresp3] at h
        simp only [] at h
        injection h with h2
        exact ⟨kvs1, kvs3, kvs3, h2.symm, hd1, rfl, rfl, rfl⟩
    | arr l2 =>
      simp only [] at h
      cases hd1 : doNormalizeObj kvs1 with
      | error e => rw [hd1] at h; simp only [] at h; exact Except.noConfusion h
      | ok kvs3 =>
        rw [hd1] at h
        simp only [] at h
        have hresp3 : jlookup kvs3 "response" = some (.arr l2) := by
          rw [dno_lookup kvs1 kvs3 hd1 "response" (by decide) (by decide)]
          exact hresp
        rw [hresp3] at h
        simp only [] at h
        injection h with h2
        exact ⟨kvs1, kvs3, kvs3, h2.symm, hd1, rfl, rfl, rfl⟩
    | obj rkvs =>
      simp only [] at h
      set rfill := defaultsFill rkvs [("headers", Json.obj []), ("remove", Json.arr [])]
        with hrfill
      cases hd1 : doNormalizeObj (jset kvs1 "response" (.obj rfill)) with
      | error e => rw [hd1] at h; simp only [] at h; exact Except.noConfusion h
      | ok kvs3 =>
        rw [hd1] at h
        simp only [] at h
        have hresp3 : jlookup kvs3 "response" = some (.obj rfill) := by
          rw [dno_lookup _ _ hd1 "response" (by decide) (by decide)]
          exact jlookup_jset_self _ _ _
        rw [hresp3] at h
        simp only [] at h
        cases hd2 : doNormalizeObj rfill with
        | error e => rw [hd2] at h; simp only [] at h; exact Except.noConfusion h
        | ok rk2 =>
          rw [hd2] at h
          simp only [] at h
          injection h with h2
          refine ⟨jset kvs1 "response" (.obj rfill), kvs3, jset kvs3 "response" (.obj rk2),
            h2.symm, hd1, ?_, ?_, ?_⟩
          · rw [jlookup_jset_other _ _ _ _ (by decide)]
          · rw [jlookup_jset_other _ _ _ _ (by decide)]
          · rw [jlookup_jset_other _ _ _ _ (by decide)]

/-! ## Well-formedness under property writes -/

theorem contains_append_strings (l1 l2 : List String) (a : String) :
    (l1 ++ l2).contains a = (l1.contains a || l2.contains a) := by
  induction l1 with
  | nil => simp
  | cons b rest ih => simp [List.contains_cons, ih, Bool.or_assoc]

theorem jset_map_fst (l : List (String × Json)) (k : String) (x : Json) :
    (jset l k x).map Prod.fst =
      (if (l.map Prod.fst).contains k then l.map Prod.fst else l.map Prod.fst ++ [k]) := by
  induction l with
  | nil => simp [jset]
  | cons kv rest ih =>
    obtain ⟨k1, v1⟩ := kv
    by_cases h1 : k1 = k
    · subst h1
      rw [jset, if_pos rfl]
      simp [List.contains_cons]
    · rw [jset, if_neg h1]
      have hb : (k == k1) = false := beq_eq_false_iff_ne.mpr (Ne.symm h1)
      rw [List.map_cons, List.map_cons, List.contains_cons, hb, Bool.false_or, ih]
      by_cases h2 : (rest.map Prod.fst).contains k = true
      · rw [if_pos h2, if_pos h2]
      · rw [if_neg h2, if_neg h2]
        rfl

theorem jnodupKeys_append_fresh (l : List String) (k : String)
    (h : jnodupKeys l = true) (hc : l.contains k = false) :
    jnodupKeys (l ++ [k]) = true := by
  induction l with
  | nil => rfl
  | cons a rest ih =>
    rw [jnodupKeys, Bool.and_eq_true] at h
    rw [List.contains_cons, Bool.or_eq_false_iff] at hc
    rw [List.cons_append, jnodupKeys, Bool.and_eq_true]
    refine ⟨?_, ih h.2 hc.2⟩
    rw [contains_append_strings]
    have h1 : (rest.contains a) = false := by
      have := h.1
      cases hcc : rest.contains a
      · rfl
      · rw [hcc] at this; simp at this
    rw [h1]
    have h2 : ([k].contains a) = false := by
      have hka : k ≠ a := beq_eq_false_iff_ne.mp hc.1
      simp only [List.contains_cons, List.contains_nil, Bool.or_false]
      exact beq_eq_false_iff_ne.mpr (Ne.symm hka)
    rw [h2]
    rfl

theorem jwfFields_jset (l : List (String × Json)) (k : String) (x : Json)
    (h : jwfFields l = true) (hx : jwf x = true) : jwfFields (jset l k x) = true := by
  induction l with
  | nil => simp [jset, jwfFields, hx]
  | cons kv rest ih =>
    obtain ⟨k1, v1⟩ := kv
    rw [jwfFields, Bool.and_eq_true] at h
    by_cases h1 : k1 = k
    · subst h1
      rw [jset, if_pos rfl, jwfFields, Bool.and_eq_true]
      exact ⟨hx, h.2⟩
    · rw [jset, if_neg h1, jwfFields, Bool.and_eq_true]
      exact ⟨h.1, ih h.2⟩

/-- A property write of a well-formed value keeps an object well-formed. -/
theorem jwf_obj_jset (l : List (String × Json)) (k : String) (x : Json)
    (h : jwf (.obj l) = true) (hx : jwf x = true) : jwf (.obj (jset l k x)) = true := by
  rw [jwf, Bool.and_eq_true] at h ⊢
  refine ⟨?_, jwfFields_jset l k x h.2 hx⟩
  rw [jset_map_fst]
  by_cases hc : (l.map Prod.fst).contains k = true
  · rw [if_pos hc]
    exact h.1
  · rw [if_neg hc]
    apply jnodupKeys_append_fresh _ _ h.1
    cases hcc : (l.map Prod.fst).contains k
    · rfl
    · exact absurd hcc hc

theorem jdelete_mem_ne (l : List (String × Json)) (k : String) (kv : String × Json)
    (h : kv ∈ jdelete l k) : kv.1 ≠ k := by
  induction l with
  | nil => simp [jdelete] at h
  | cons kv1 rest ih =>
    obtain ⟨k1, v1⟩ := kv1
    by_cases h1 : k1 = k
    · rw [jdelete, if_pos h1] at h
      exact ih h
    · rw [jdelete, if_neg h1] at h
      rcases List.mem_cons.mp h with h2 | h2
      · rw [h2]
        exact h1
      · exact ih h2

/-- After deleting the key that owns every matching entry, no match is
left. -/
theorem find_jdelete_none (l : List (String × Json)) (kk : String)
    (p : (String × Json) → Bool)
    (h : ∀ kv ∈ l, p kv = true → kv.1 = kk) :
    (jdelete l kk).find? p = none := by
  rw [List.find?_eq_none]
  intro kv hm hp
  exact jdelete_mem_ne l kk kv hm (h kv (jdelete_mem l kk kv hm) hp)

/-- C8: normalization is idempotent — for every input spec `s`,
re-normalizing the result of `normalize(s)` (when it does not throw)
returns that result unchanged, so `normalize(normalize(s))` equals
`normalize(s)` with exceptions propagated. -/
theorem normalize_idempotent (s : Json) :
    (normalizeTamperSpec s).bind normalizeTamperSpec = normalizeTamperSpec s := by
  cases h : normalizeTamperSpec s with
  | error e => rfl
  | ok t2 =>
    show normalizeTamperSpec t2 = Except.ok t2
    exact normalize_fixed s t2 h

/-- C4: decoding the transport token is the exact inverse of the
encoding step — for every well-formed JSON spec `s`,
`decodeReqModifyOpts (b64EncodeUnicode (JSON.stringify s))` yields `s`
back, including Unicode content and the empty object. -/
theorem decode_inverse_of_encode (s : Json) (hwf : jwf s = true) :
    decodeReqModifyOpts (b64EncodeUnicode (stringify s)) = .ok s :=
  decode_encode s hwf

theorem decode_inverse_of_encode_witness :
    jwf (Json.obj [("h", Json.obj [("X-Näme", Json.str "välue ✓")]), ("e", Json.obj [])]) = true ∧
    decodeReqModifyOpts (b64EncodeUnicode (stringify
      (Json.obj [("h", Json.obj [("X-Näme", Json.str "välue ✓")]), ("e", Json.obj [])]))) =
      .ok (Json.obj [("h", Json.obj [("X-Näme", Json.str "välue ✓")]), ("e", Json.obj [])]) :=
  ⟨by rfl, decode_inverse_of_encode
    (Json.obj [("h", Json.obj [("X-Näme", Json.str "välue ✓")]), ("e", Json.obj [])]) (by rfl)⟩

/-- C7 (counterexample): normalization is not total — a spec whose
`response` field is the null marker makes `_normalizeTamperSpec` throw
(`defaults(null, …)` dereferences `null`). -/
theorem normalize_throws_cex :
    normalizeTamperSpec (Json.obj [("response", Json.null)]) = .error () := rfl

/-- C7 (amended): when normalization of an object spec succeeds, the
four structural fields are present in the result, the output header
object holds no null entry, and — with duplicate-free header keys —
every name bound to null in the input headers is dropped from the output
headers and recorded in the output `remove` array. -/
theorem normalize_fills_and_migrates (kvs hs : List (String × Json)) (t2 : Json)
    (hnod : jnodupKeys (hs.map Prod.fst) = true)
    (hh : jlookup kvs "headers" = some (Json.obj hs))
    (hok : normalizeTamperSpec (Json.obj kvs) = Except.ok t2) :
    ∃ kvs2 hs2, t2 = Json.obj kvs2 ∧
      jlookup kvs2 "headers" = some (Json.obj hs2) ∧
      (jlookup kvs2 "remove").isSome ∧ (jlookup kvs2 "opts").isSome ∧
      (jlookup kvs2 "response").isSome ∧
      hs2.filter (fun kv => jIsNull kv.2) = [] ∧
      ∀ X, jlookup hs X = some Json.null →
        jlookup hs2 X = none ∧
        ∃ rl2, jlookup kvs2 "remove" = some (Json.arr rl2) ∧ Json.str X ∈ rl2 := by
  obtain ⟨kvsM, kvs3, kvsF, rfl, hd, hMh, hFh, hFr⟩ := normalize_top_dno kvs t2 hok
  obtain ⟨kvsS, hS, hshape⟩ := shape_of_ok _ _ hok
  injection hS with h5
  subst h5
  have hMh2 : jlookup kvsM "headers" = some (Json.obj hs) := by
    rw [hMh]
    exact jlookup_fill_keeps _ _ _ _ hh
  obtain ⟨hs2, h2h, h2f, h2mig⟩ := dno_headers kvsM kvs3 hs hd hMh2
  obtain ⟨hsh, hsr, hso, ⟨rv, hresp, _, _⟩, _⟩ := hshape
  refine ⟨kvsF, hs2, rfl, ?_, hsr, hso, ?_, h2f, ?_⟩
  · rw [hFh]; exact h2h
  · rw [hresp]; rfl
  · intro X hX
    obtain ⟨hnone, rl2, hrl, hmem⟩ := h2mig X hX
    exact ⟨hnone hnod, rl2, by rw [hFr]; exact hrl, hmem⟩

theorem normalize_fills_and_migrates_witness :
    ∃ kvs2 hs2,
      (Json.obj [("headers", Json.obj []), ("remove", Json.arr [Json.str "a"]),
        ("response", Json.obj [("headers", Json.obj []), ("remove", Json.arr [])]),
        ("opts", Json.obj [])]) = Json.obj kvs2 ∧
      jlookup kvs2 "headers" = some (Json.obj hs2) ∧
      (jlookup kvs2 "remove").isSome ∧ (jlookup kvs2 "opts").isSome ∧
      (jlookup kvs2 "response").isSome ∧
      hs2.filter (fun kv => jIsNull kv.2) = [] ∧
      ∀ X, jlookup [("a", Json.null)] X = some Json.null →
        jlookup hs2 X = none ∧
        ∃ rl2, jlookup kvs2 "remove" = some (Json.arr rl2) ∧ Json.str X ∈ rl2 :=
  normalize_fills_and_migrates [("headers", Json.obj [("a", Json.null)])] [("a", Json.null)]
    (Json.obj [("headers", Json.obj []), ("remove", Json.arr [Json.str "a"]),
      ("response", Json.obj [("headers", Json.obj []), ("remove", Json.arr [])]),
      ("opts", Json.obj [])])
    (by rfl) (by rfl) (by rfl)

/-- C6 (counterexample): the per-entry description over the original
header list is wrong for `toSet` objects holding two spellings of one
name — the second entry overwrites the header the first one appended
(keeping the first spelling) instead of appending a second header. -/
theorem set_headers_duplicate_keys_cex :
    setHeaders ([] : List (HttpHeader Json)) [("a", Json.str "1"), ("A", Json.str "2")] =
      [⟨"a", Json.str "2"⟩] := rfl

/-- C6 (amended): `setHeaders` folds `toSet` sequentially over the
evolving list; each step overwrites every case-insensitive occurrence in
the current list (keeping the existing casings and positions) or else
appends one entry with the `toSet` casing; so two case-insensitively
equal `toSet` keys against an empty list produce a single header, and
the quoted `X-Foo` example holds. -/
theorem set_headers_sequential :
    (∀ (hs : List (HttpHeader Json)) (kv : String × Json) (rest : List (String × Json)),
      setHeaders hs (kv :: rest) = setHeaders (setHeadersStep hs kv.1 kv.2) rest) ∧
    (∀ (hs : List (HttpHeader Json)) (k : String) (v : Json),
      (hs.any (fun h2 => lowerStr h2.name = lowerStr k) = false →
        setHeadersStep hs k v = hs ++ [⟨k, v⟩]) ∧
      (hs.any (fun h2 => lowerStr h2.name = lowerStr k) = true →
        setHeadersStep hs k v =
          hs.map (fun h2 => if lowerStr h2.name = lowerStr k then ⟨h2.name, v⟩ else h2))) ∧
    (∀ (k1 k2 : String) (v1 v2 : Json), lowerStr k1 = lowerStr k2 →
      setHeaders ([] : List (HttpHeader Json)) [(k1, v1), (k2, v2)] = [⟨k1, v2⟩]) ∧
    setHeaders [⟨"X-Foo", Json.str "a"⟩] [("x-foo", Json.str "b")] =
      [⟨"X-Foo", Json.str "b"⟩] := by
  refine ⟨fun hs kv rest => rfl, fun hs k v => ⟨fun hfalse => ?_, fun htrue => ?_⟩,
    fun k1 k2 v1 v2 hcase => ?_, rfl⟩
  · unfold setHeadersStep
    rw [hfalse]
    rfl
  · unfold setHeadersStep
    rw [htrue]
    rfl
  · show setHeadersStep (setHeadersStep [] k1 v1) k2 v2 = [⟨k1, v2⟩]
    have h1 : setHeadersStep ([] : List (HttpHeader Json)) k1 v1 = [⟨k1, v1⟩] := rfl
    rw [h1]
    unfold setHeadersStep
    rw [List.any_cons]
    simp only [List.any_nil, Bool.or_false, hcase, decide_True, if_true]
    simp only [List.map_cons, List.map_nil, hcase, if_true]

/-- C1 (counterexample): a pattern registered with an empty `regexes`
array and a `urls` list containing the request url exactly does NOT
match — `regexes`, being a truthy array, suppresses the `urls` check
entirely, so `get` finds nothing. -/
theorem get_pattern_urls_ignored_cex :
    ∃ st1, TamperStore.empty.addPattern ⟨some [], some ["http://a"], some (Json.obj [])⟩ =
        .ok st1 ∧
      TamperStore.get (fun _ _ => false) st1 1 0 "http://a" = none :=
  ⟨_, rfl, rfl⟩

/-- C1 (amended): `get` resolution — a direct hit under the composite
key wins outright; otherwise the result is the pattern scan, which
returns the first (most recently added, since `addPattern` prepends)
association that matches: when `regexes` is present only the regexes are
consulted (an empty array matches nothing, even if `urls` lists the url),
and only when `regexes` is absent is `urls` checked by exact string
equality; no match yields the null result. -/
theorem get_resolution_order (rm : (String × Option String) → String → Bool)
    (st : TamperStore) (tabId frameId : Int) (url : String) :
    (∀ v, st.getDirect (makeKey tabId frameId url) = some v →
      TamperStore.get rm st tabId frameId url = some v) ∧
    (st.getDirect (makeKey tabId frameId url) = none →
      TamperStore.get rm st tabId frameId url = st.scanPatternMods rm url) ∧
    (∀ e : PatternEntry, e.regexes = some [] → patternMatches rm e url = false) ∧
    (∀ (e : PatternEntry) (rs : List (String × Option String)), e.regexes = some rs →
      (patternMatches rm e url = true ↔ ∃ r ∈ rs, rm r url = true)) ∧
    (∀ e : PatternEntry, e.regexes = none →
      (patternMatches rm e url = true ↔ url ∈ e.urls.getD [])) ∧
    (∀ (dta : List (String × Json)) (e : PatternEntry) (es : List PatternEntry),
      patternMatches rm e url = true →
      TamperStore.scanPatternMods rm ⟨dta, e :: es⟩ url = some (deepClone e.tamper)) ∧
    (∀ (p : PatternParams) (st1 : TamperStore), st.addPattern p = .ok st1 →
      ∃ t2, normalizeTamperSpec (deepClone (p.tamper.getD Json.null)) = .ok t2 ∧
        st1.data = st.data ∧
        st1.patternMods = ⟨p.regexes, p.urls, t2⟩ :: st.patternMods) := by
  refine ⟨?_, ?_, ?_, ?_, ?_, ?_, ?_⟩
  · intro v hv
    unfold TamperStore.get
    rw [hv]
  · intro hv
    unfold TamperStore.get
    rw [hv]
  · intro e he
    unfold patternMatches
    rw [he]
    rfl
  · intro e rs he
    unfold patternMatches
    rw [he]
    exact List.any_eq_true
  · intro e he
    unfold patternMatches
    rw [he]
    rw [List.any_eq_true]
    constructor
    · rintro ⟨u, hu, hd⟩
      have h2 : url = u := of_decide_eq_true hd
      rwa [h2]
    · intro hu
      exact ⟨url, hu, by simp⟩
  · intro dta e es hmatch
    unfold TamperStore.scanPatternMods
    rw [show ({ data := dta, patternMods := e :: es } : TamperStore).patternMods = e :: es
      from rfl]
    rw [List.find?_cons_of_pos _ (by simpa using hmatch)]
  · intro p st1 hadd
    unfold TamperStore.addPattern at hadd
    by_cases hc : p.regexes.isNone ∧ p.urls.isNone
    · rw [if_pos hc] at hadd
      exact Except.noConfusion hadd
    · rw [if_neg hc] at hadd
      cases hp : p.tamper with
      | none =>
        rw [hp] at hadd
        exact Except.noConfusion hadd
      | some t =>
        rw [hp] at hadd
        simp only [] at hadd
        cases hn : normalizeTamperSpec (deepClone t) with
        | error e =>
          rw [hn] at hadd
          exact Except.noConfusion hadd
        | ok t2 =>
          rw [hn] at hadd
          simp only [] at hadd
          injection hadd with h2
          refine ⟨t2, ?_, ?_, ?_⟩
          · exact hn
          · rw [← h2]
          · rw [← h2]

/-- C5: at a terminal (non-redirect) response whose spec was found by
request id, a spec with a truthy `opts.once` is removed from the direct
map under its stored `key` — and when that key owned every entry bound
to the request id, a later lookup by the id finds nothing — while a spec
without `opts.once` leaves the store untouched and still resolvable by
the request id. -/
theorem terminal_once_retirement (st : TamperStore) (d : RespDetails) (k kk : String)
    (v ov : Json) (respHeaders : Option (List (HttpHeader Json)))
    (hterm : ¬(d.statusCode = 301 ∨ d.statusCode = 302))
    (hfind : st.data.find? (fun kv => reqIdMatches kv.2 d.requestId) = some (k, v))
    (happ : applyRespTransforms (deepClone v) d.responseHeaders = .ok respHeaders)
    (hopts : jFieldOpt (deepClone v) "opts" = some ov)
    (hovn : ov ≠ Json.null) :
    (jTruthyOpt (jFieldOpt ov "once") = true →
      jFieldOpt (deepClone v) "key" = some (Json.str kk) →
      onHeadersReceived st d = (st.removeDirect kk, .ok respHeaders) ∧
      ((∀ kv2 ∈ st.data, reqIdMatches kv2.2 d.requestId = true → kv2.1 = kk) →
        (st.removeDirect kk).getByRequestId d.requestId = none)) ∧
    (jTruthyOpt (jFieldOpt ov "once") = false →
      onHeadersReceived st d = (st, .ok respHeaders) ∧
      st.getByRequestId d.requestId = some (deepClone v)) := by
  have hget : st.getByRequestId d.requestId = some (deepClone v) := by
    unfold TamperStore.getByRequestId
    rw [hfind]
  have hchk : checkIfRedirect d (respHeaders.getD d.responseHeaders) = .ok none := by
    unfold checkIfRedirect
    rw [if_neg hterm]
  have hrun : ∀ res : TamperStore × Except Unit (Option (List (HttpHeader Json))),
      (match jFieldOpt (deepClone v) "opts" with
        | none => (st, .error ())
        | some .null => (st, .error ())
        | some ov2 =>
          if jTruthyOpt (jFieldOpt ov2 "once") then
            (match jFieldOpt (deepClone v) "key" with
            | some (.str k2) => (st.removeDirect k2, .ok respHeaders)
            | _ => (st, .ok respHeaders))
          else (st, .ok respHeaders)) = res →
      onHeadersReceived st d = res := by
    intro res hres
    unfold onHeadersReceived
    rw [hget]
    simp only []
    rw [happ]
    simp only []
    rw [hchk]
    simp only []
    exact hres
  constructor
  · intro honce hkey
    constructor
    · apply hrun
      rw [hopts]
      cases ov with
      | null => exact absurd rfl hovn
      | bool b => simp only []; rw [honce, hkey]; rfl
      | num n => simp only []; rw [honce, hkey]; rfl
      | str s => simp only []; rw [honce, hkey]; rfl
      | arr l2 => simp only []; rw [honce, hkey]; rfl
      | obj okvs => simp only []; rw [honce, hkey]; rfl
    · intro huniq
      unfold TamperStore.getByRequestId TamperStore.removeDirect
      simp only []
      rw [find_jdelete_none st.data kk _ huniq]
  · intro honce
    constructor
    · apply hrun
      rw [hopts]
      cases ov with
      | null => exact absurd rfl hovn
      | bool b => simp only []; rw [honce]; rfl
      | num n => simp only []; rw [honce]; rfl
      | str s => simp only []; rw [honce]; rfl
      | arr l2 => simp only []; rw [honce]; rfl
      | obj okvs => simp only []; rw [honce]; rfl
    · exact hget

def vC5w : Json :=
  Json.obj [("requestId", Json.str "7"), ("opts", Json.obj [("once", Json.bool true)]),
    ("key", Json.str "K")]

def stC5w : TamperStore := ⟨[("K", vC5w)], []⟩

theorem terminal_once_retirement_witness :
    (jTruthyOpt (jFieldOpt (Json.obj [("once", Json.bool true)]) "once") = true →
      jFieldOpt (deepClone vC5w) "key" = some (Json.str "K") →
      onHeadersReceived stC5w ⟨1, 0, "7", 200, []⟩ = (stC5w.removeDirect "K", .ok none) ∧
      ((∀ kv2 ∈ stC5w.data, reqIdMatches kv2.2 "7" = true → kv2.1 = "K") →
        (stC5w.removeDirect "K").getByRequestId "7" = none)) ∧
    (jTruthyOpt (jFieldOpt (Json.obj [("once", Json.bool true)]) "once") = false →
      onHeadersReceived stC5w ⟨1, 0, "7", 200, []⟩ = (stC5w, .ok none) ∧
      stC5w.getByRequestId "7" = some (deepClone vC5w)) :=
  terminal_once_retirement stC5w ⟨1, 0, "7", 200, []⟩ "K" "K" vC5w
    (Json.obj [("once", Json.bool true)]) none
    (by decide) (by rfl) (by rfl) (by rfl) (fun hc => Json.noConfusion hc)

/-- C9: a redirect status (301/302) without a `Location` header raises
`MalformedRedirectError` — the handler returns the thrown error, so no
modified headers are produced, and the store is returned exactly as it
was: the spec is neither retired nor re-keyed. -/
theorem malformed_redirect_aborts (st : TamperStore) (d : RespDetails) (k : String)
    (v : Json) (respHeaders : Option (List (HttpHeader Json)))
    (hfind : st.data.find? (fun kv => reqIdMatches kv.2 d.requestId) = some (k, v))
    (happ : applyRespTransforms (deepClone v) d.responseHeaders = .ok respHeaders)
    (hstatus : d.statusCode = 301 ∨ d.statusCode = 302)
    (hloc : getHeader (respHeaders.getD d.responseHeaders) "Location" = none) :
    onHeadersReceived st d = (st, .error ()) := by
  have hget : st.getByRequestId d.requestId = some (deepClone v) := by
    unfold TamperStore.getByRequestId
    rw [hfind]
  have hchk : checkIfRedirect d (respHeaders.getD d.responseHeaders) = .error () := by
    unfold checkIfRedirect
    rw [if_pos hstatus, hloc]
  unfold onHeadersReceived
  rw [hget]
  simp only []
  rw [happ]
  simp only []
  rw [hchk]

theorem malformed_redirect_aborts_witness :
    onHeadersReceived ⟨[("K", Json.obj [("requestId", Json.str "7")])], []⟩
        ⟨1, 0, "7", 301, []⟩ =
      (⟨[("K", Json.obj [("requestId", Json.str "7")])], []⟩, .error ()) :=
  malformed_redirect_aborts
    ⟨[("K", Json.obj [("requestId", Json.str "7")])], []⟩ ⟨1, 0, "7", 301, []⟩
    "K" (Json.obj [("requestId", Json.str "7")]) none
    (by rfl) (by rfl) (Or.inl rfl) (by rfl)

set_option maxRecDepth 100000 in
/-- C2 (counterexample): a redirect whose `Location` equals the spec's
current url re-keys the spec onto the same composite key, so
`get(tabId, frameId, urlA)` afterwards still returns the spec rather
than "no match" — the claim's two conclusions cannot both hold for every
target url. -/
theorem redirect_selftarget_cex :
    ∃ st1 st2 out,
      TamperStore.empty.setDirect (makeKey 1 0 "http://a")
        (Json.obj [("requestId", Json.str "7")]) = .ok st1 ∧
      onHeadersReceived st1 ⟨1, 0, "7", 302, [⟨"Location", Json.str "http://a"⟩]⟩ =
        (st2, out) ∧
      (TamperStore.get (fun _ _ => false) st2 1 0 "http://a").isSome = true :=
  ⟨_, _, _, rfl, rfl, rfl⟩

/-- C2 (amended): at a 301/302 whose `Location` names a DIFFERENT url,
a stored normalized spec found by request id is deleted from its current
composite key and re-stored (key field re-stamped) under the redirect
target's key: afterwards — with no registered patterns — `get` on the
old url finds nothing and `get` on the target url returns the re-keyed
spec. -/
theorem redirect_rekeys_spec (rm : (String × Option String) → String → Bool)
    (st : TamperStore) (d : RespDetails) (urlA urlB : String)
    (kvs : List (String × Json)) (respHeaders : Option (List (HttpHeader Json)))
    (hurl : urlA ≠ urlB)
    (hwf : jwf (Json.obj kvs) = true)
    (hnorm : normalizeTamperSpec (Json.obj kvs) = .ok (Json.obj kvs))
    (hfind : st.data.find? (fun kv => reqIdMatches kv.2 d.requestId) =
      some (makeKey d.tabId d.frameId urlA, Json.obj kvs))
    (hkeyf : jlookup kvs "key" = some (Json.str (makeKey d.tabId d.frameId urlA)))
    (happ : applyRespTransforms (Json.obj kvs) d.responseHeaders = .ok respHeaders)
    (hstatus : d.statusCode = 301 ∨ d.statusCode = 302)
    (hloc : getHeader (respHeaders.getD d.responseHeaders) "Location" =
      some (Json.str urlB))
    (hpat : st.patternMods = []) :
    onHeadersReceived st d =
      (⟨jset (jdelete st.data (makeKey d.tabId d.frameId urlA))
          (makeKey d.tabId d.frameId urlB)
          (Json.obj (jset kvs "key" (Json.str (makeKey d.tabId d.frameId urlB)))),
        st.patternMods⟩,
       .ok respHeaders) ∧
    TamperStore.get rm
      ⟨jset (jdelete st.data (makeKey d.tabId d.frameId urlA))
          (makeKey d.tabId d.frameId urlB)
          (Json.obj (jset kvs "key" (Json.str (makeKey d.tabId d.frameId urlB)))),
        st.patternMods⟩ d.tabId d.frameId urlA = none ∧
    TamperStore.get rm
      ⟨jset (jdelete st.data (makeKey d.tabId d.frameId urlA))
          (makeKey d.tabId d.frameId urlB)
          (Json.obj (jset kvs "key" (Json.str (makeKey d.tabId d.frameId urlB)))),
        st.patternMods⟩ d.tabId d.frameId urlB =
      some (Json.obj (jset kvs "key" (Json.str (makeKey d.tabId d.frameId urlB)))) := by
  have hclone : deepClone (Json.obj kvs) = Json.obj kvs := deepClone_wf _ hwf
  have hkAB : makeKey d.tabId d.frameId urlA ≠ makeKey d.tabId d.frameId urlB :=
    fun hc => hurl (makeKey_inj_url _ _ _ _ hc)
  have hget : st.getByRequestId d.requestId = some (Json.obj kvs) := by
    unfold TamperStore.getByRequestId
    rw [hfind]
    simp only []
    rw [hclone]
  have hchk : checkIfRedirect d (respHeaders.getD d.responseHeaders) = .ok (some urlB) := by
    unfold checkIfRedirect
    rw [if_pos hstatus, hloc]
  have hkf2 : jFieldOpt (Json.obj kvs) "key" =
      some (Json.str (makeKey d.tabId d.frameId urlA)) := hkeyf
  have hwfB : jwf (Json.obj (jset kvs "key"
      (Json.str (makeKey d.tabId d.frameId urlB)))) = true :=
    jwf_obj_jset kvs "key" _ hwf (by rfl)
  have hset : TamperStore.set
      (st.removeDirect (makeKey d.tabId d.frameId urlA)) d.tabId d.frameId urlB
      (Json.obj kvs) =
      .ok ⟨jset (jdelete st.data (makeKey d.tabId d.frameId urlA))
          (makeKey d.tabId d.frameId urlB)
          (Json.obj (jset kvs "key" (Json.str (makeKey d.tabId d.frameId urlB)))),
        st.patternMods⟩ := by
    unfold TamperStore.set TamperStore.setDirect
    rw [hclone, hnorm]
    rfl
  have hrun : onHeadersReceived st d =
      (⟨jset (jdelete st.data (makeKey d.tabId d.frameId urlA))
          (makeKey d.tabId d.frameId urlB)
          (Json.obj (jset kvs "key" (Json.str (makeKey d.tabId d.frameId urlB)))),
        st.patternMods⟩,
       .ok respHeaders) := by
    unfold onHeadersReceived
    rw [hget]
    simp only []
    rw [happ]
    simp only []
    rw [hchk]
    simp only []
    rw [hkf2]
    simp only []
    rw [hset]
  refine ⟨hrun, ?_, ?_⟩
  · unfold TamperStore.get TamperStore.getDirect
    simp only []
    rw [jlookup_jset_other _ _ _ _ hkAB, jlookup_jdelete_self]
    simp only []
    unfold TamperStore.scanPatternMods
    simp only []
    rw [hpat]
    rfl
  · unfold TamperStore.get TamperStore.getDirect
    simp only []
    rw [jlookup_jset_self]
    simp only []
    rw [deepClone_wf _ hwfB]

def kvsC2w : List (String × Json) :=
  [("requestId", Json.str "7"), ("key", Json.str "1::0::http://a"),
   ("headers", Json.obj []), ("remove", Json.arr []),
   ("response", Json.obj [("headers", Json.obj []), ("remove", Json.arr [])]),
   ("opts", Json.obj [])]

def stC2w : TamperStore := ⟨[("1::0::http://a", Json.obj kvsC2w)], []⟩

theorem redirect_rekeys_spec_witness :
    onHeadersReceived stC2w ⟨1, 0, "7", 302, [⟨"Location", Json.str "http://b"⟩]⟩ =
      (⟨jset (jdelete stC2w.data (makeKey 1 0 "http://a")) (makeKey 1 0 "http://b")
          (Json.obj (jset kvsC2w "key" (Json.str (makeKey 1 0 "http://b")))),
        stC2w.patternMods⟩,
       .ok (some [⟨"Location", Json.str "http://b"⟩])) ∧
    TamperStore.get (fun _ _ => false)
      ⟨jset (jdelete stC2w.data (makeKey 1 0 "http://a")) (makeKey 1 0 "http://b")
          (Json.obj (jset kvsC2w "key" (Json.str (makeKey 1 0 "http://b")))),
        stC2w.patternMods⟩ 1 0 "http://a" = none ∧
    TamperStore.get (fun _ _ => false)
      ⟨jset (jdelete stC2w.data (makeKey 1 0 "http://a")) (makeKey 1 0 "http://b")
          (Json.obj (jset kvsC2w "key" (Json.str (makeKey 1 0 "http://b")))),
        stC2w.patternMods⟩ 1 0 "http://b" =
      some (Json.obj (jset kvsC2w "key" (Json.str (makeKey 1 0 "http://b")))) :=
  redirect_rekeys_spec (fun _ _ => false) stC2w
    ⟨1, 0, "7", 302, [⟨"Location", Json.str "http://b"⟩]⟩ "http://a" "http://b" kvsC2w
    (some [⟨"Location", Json.str "http://b"⟩])
    (by decide) (by rfl) (by rfl) (by rfl) (by rfl) (by rfl) (Or.inr rfl) (by rfl) rfl

set_option maxRecDepth 100000 in
/-- C3 (counterexample): `btoa`'s alphabet contains `/`, so a token can
carry a path separator — the spec `{"a":"???"}` encodes to a token with
a `/`, the tag regex `[^\/]*$` then fails to match, and the Intercepted
transition is a no-op instead of recognizing the tagged url. -/
theorem tag_token_slash_cex :
    '/' ∈ (b64EncodeUnicode (stringify (Json.obj [("a", Json.str "???")]))).data ∧
    onBeforeRequest TamperStore.empty
      ⟨1, 0, makeUrl "http://x.test/a" (Json.obj [("a", Json.str "???")])⟩ =
      (TamperStore.empty, .ok none) :=
  ⟨by decide, rfl⟩

/-- The key-stamping step of `setDirect`: objects get `key` set to the
composite key, primitives are returned unchanged (the write on a
primitive is silently discarded). -/
def stampKey (key : String) : Json → Json
  | .obj kvs => .obj (jset kvs "key" (.str key))
  | other => other

/-- C3 (amended): whenever the encoded token happens to be free of `/`
(and of `$`), the tagged url is recognized: the tag regex recovers
exactly the original url and the token, the token decodes back to the
spec, the spec is stored under the original url's composite key with
`requestId` nulled (and `key` stamped after normalization), and the
handler redirects to the original url. -/
theorem tag_roundtrip_urlsafe (u : String) (kvs : List (String × Json)) (st : TamperStore)
    (tabId frameId : Int) (t2 : Json)
    (hwf : jwf (Json.obj kvs) = true)
    (hslash : ∀ c ∈ (b64EncodeUnicode (stringify (Json.obj kvs))).data, c ≠ '/')
    (hdollar : ∀ c ∈ (b64EncodeUnicode (stringify (Json.obj kvs))).data, c ≠ '$')
    (hnorm : normalizeTamperSpec (deepClone (Json.obj (jset kvs "requestId" Json.null))) =
      .ok t2) :
    splitTag (makeUrl u (Json.obj kvs)).data =
      some (u.data, (b64EncodeUnicode (stringify (Json.obj kvs))).data) ∧
    onBeforeRequest st ⟨tabId, frameId, makeUrl u (Json.obj kvs)⟩ =
      ({ st with data := (jset st.data (makeKey tabId frameId u)
          (stampKey (makeKey tabId frameId u) t2)) },
       .ok (some u)) := by
  have hdata : (makeUrl u (Json.obj kvs)).data =
      u.data ++ (tagChars ++ (b64EncodeUnicode (stringify (Json.obj kvs))).data) := by
    unfold makeUrl
    rw [String.data_append, String.data_append, List.append_assoc]
    rfl
  have hsplit : splitTag (makeUrl u (Json.obj kvs)).data =
      some (u.data, (b64EncodeUnicode (stringify (Json.obj kvs))).data) := by
    rw [hdata]
    exact splitTag_append _ _ hslash hdollar
  refine ⟨hsplit, ?_⟩
  unfold onBeforeRequest
  rw [hsplit]
  simp only []
  have hdec : decodeReqModifyOpts
      (String.mk (b64EncodeUnicode (stringify (Json.obj kvs))).data) = .ok (Json.obj kvs) := by
    rw [string_mk_data]
    exact decode_encode _ hwf
  rw [hdec]
  simp only []
  rw [show jsSetField (Json.obj kvs) "requestId" Json.null =
    .ok (Json.obj (jset kvs "requestId" Json.null)) from rfl]
  simp only []
  rw [string_mk_data]
  have hset : TamperStore.set st tabId frameId u (Json.obj (jset kvs "requestId" Json.null)) =
      .ok { st with data := (jset st.data (makeKey tabId frameId u)
        (stampKey (makeKey tabId frameId u) t2)) } := by
    unfold TamperStore.set TamperStore.setDirect
    rw [hnorm]
    cases t2 <;> rfl
  rw [hset]

def kvsC3w : List (String × Json) := [("a", Json.str "b")]

def t2C3w : Json :=
  Json.obj [("a", Json.str "b"), ("requestId", Json.null), ("headers", Json.obj []),
    ("remove", Json.arr []),
    ("response", Json.obj [("headers", Json.obj []), ("remove", Json.arr [])]),
    ("opts", Json.obj [])]

set_option maxRecDepth 100000 in
theorem tag_roundtrip_urlsafe_witness :
    splitTag (makeUrl "http://x.test/p" (Json.obj kvsC3w)).data =
      some ("http://x.test/p".data, (b64EncodeUnicode (stringify (Json.obj kvsC3w))).data) ∧
    onBeforeRequest TamperStore.empty ⟨7, 2, makeUrl "http://x.test/p" (Json.obj kvsC3w)⟩ =
      ({ TamperStore.empty with
          data := (jset TamperStore.empty.data (makeKey 7 2 "http://x.test/p")
            (stampKey (makeKey 7 2 "http://x.test/p") t2C3w)) },
       .ok (some "http://x.test/p")) :=
  tag_roundtrip_urlsafe "http://x.test/p" kvsC3w TamperStore.empty 7 2 t2C3w
    (by rfl) (by decide) (by decide) (by rfl)

